import Mathlib

/-!
# Nebulabrot: a shallow embedding of `nebulabrot.c` and `colors.c`

C `double` values are read as elements of an arbitrary linearly ordered field `K`
with a floor function (exact arithmetic; `ℚ` for evaluation, `ℝ` where a
transcendental library function is involved).  C `int` values are `ℤ`.
Loops with a constant trip count recurse on the remaining number of iterations;
the two `for` loops over a `double` counter take fuel.

Two places leave exact arithmetic.  The division by `max_abs` in the renderer can have
divisor zero; its result is then not a number (`fdiv`, `HSL2RGB_nonfinite`).  The
products `r * 255.0` that `HSL2RGB` converts to bytes are rounded to a double before
the conversion; `HSL2RGB_rounded` takes that rounding as a parameter.
-/

set_option linter.unusedSectionVars false
set_option linter.unusedVariables false

namespace Nebulabrot

/-! ## Data model -/

/-- C `double complex`: a pair of doubles. -/
@[ext]
structure Cplx (K : Type) where
  re : K
  im : K

/-- The struct `COLOR` of `colors.h`: three `unsigned char` channels. -/
@[ext]
structure COLOR where
  r : ℤ
  g : ℤ
  b : ℤ
deriving DecidableEq, Repr

section Defs

variable {K : Type} [LinearOrderedField K] [FloorRing K]

instance : Add (Cplx K) := ⟨fun a b => ⟨a.re + b.re, a.im + b.im⟩⟩

instance : Mul (Cplx K) :=
  ⟨fun a b => ⟨a.re * b.re - a.im * b.im, a.re * b.im + a.im * b.re⟩⟩

instance : Zero (Cplx K) := ⟨⟨0, 0⟩⟩

/-- The sum of `n` copies of `c` (what `n` executions of `cell += c` add to a cell). -/
def Cplx.nsmul (n : ℕ) (c : Cplx K) : Cplx K := ⟨n * c.re, n * c.im⟩

/-! ## Constants of `nebulabrot.c` -/

def SCALE : ℕ := 2
def IMAGE_WIDTH : ℕ := 1366 * SCALE
def IMAGE_HEIGHT : ℕ := 768 * SCALE

def VIEW_WIDTH : K := 4.0
def VIEW_CENTER_X : K := -0.5
def VIEW_CENTER_Y : K := 0.0

def MAX_ITERATIONS : ℕ := 8192
def BAILOUT : K := 3.0
def PRECISION : ℕ := 4

/-! The globals `main` assigns before anything else runs (lines 137-141). -/

def VIEW_HEIGHT : K := (IMAGE_HEIGHT : K) * VIEW_WIDTH / (IMAGE_WIDTH : K)
def START_X : K := VIEW_CENTER_X - VIEW_WIDTH / 2
def START_Y : K := VIEW_CENTER_Y - VIEW_HEIGHT / 2
def STEP_X : K := VIEW_WIDTH / ((IMAGE_WIDTH * PRECISION : ℕ) : K)
def STEP_Y : K := VIEW_HEIGHT / ((IMAGE_HEIGHT * PRECISION : ℕ) : K)

/-! ## Scalar helpers -/

/-- Modelled from the spec: `sqr` of the header `my_math.h`, which is not among the
sources; the spec lists it as the generic scalar helper "square". -/
def sqr (x : K) : K := x * x

/-- Modelled from the spec: `max` of the header `my_math.h`, which is not among the
sources; the spec lists it among the "generic scalar helper functions
(min/max/square/linear interpolation)". -/
def max_ (a b : K) : K := if a < b then b else a

/-- Conversion of a `double` to `int`: truncation toward zero.  (The conversion is
undefined in C when the truncated value does not fit an `int`; that range is not
modelled.) -/
def toInt (d : K) : ℤ := if 0 ≤ d then ⌊d⌋ else ⌈d⌉

/-- The test `cabs(z) > r`, in exact arithmetic: `sqrt (re² + im²) > r` holds iff
`r < 0` or `r² < re² + im²` (see `cabs_gt_iff_sqrt`). -/
def cabs_gt (z : Cplx K) (r : K) : Bool :=
  decide (r < 0 ∨ r * r < z.re * z.re + z.im * z.im)

/-! ## The set classifier (`nebulabrot.c`, lines 36-62) -/

def in_cardioid (x y : K) : Bool :=
  let q := sqr (x - 0.25) + sqr y
  decide (q * (q + (x - 0.25)) < sqr y / 4.0)

def in_bulb (x y : K) : Bool :=
  decide (sqr (x + 1) + sqr y < 0.0625)

/-- The `for` loop of `in_set`, with `n = MAX_ITERATIONS - i` iterations still to run
and `z` the current value of the local `z`. -/
def in_set_loop (c : Cplx K) : ℕ → Cplx K → ℤ
  | 0, _ => 1
  | n + 1, z => if cabs_gt z BAILOUT then 0 else in_set_loop c n (z * z + c)

def in_set (c : Cplx K) : ℤ :=
  let z := c
  let x := c.re
  let y := c.im
  if in_cardioid x y || in_bulb x y then 1
  else in_set_loop c MAX_ITERATIONS z

/-- The orbit of the seed: `z_0 = c`, `z_{k+1} = z_k² + c`. -/
def orbit (c : Cplx K) : ℕ → Cplx K
  | 0 => c
  | k + 1 => orbit c k * orbit c k + c

/-! ## The orbit accumulator (`nebulabrot.c`, lines 64-89) -/

/-- The global array `counter[IMAGE_HEIGHT][IMAGE_WIDTH]`, indexed by row, then column.
The index type is all of `ℤ × ℤ`, so that "no cell outside the array is written" is a
statement about the code and not a consequence of the type. -/
abbrev Grid (K : Type) := ℤ → ℤ → Cplx K

/-- The statement `counter[iy][ix] += c`. -/
def Grid.add (counter : Grid K) (iy ix : ℤ) (c : Cplx K) : Grid K :=
  fun r q => if r = iy ∧ q = ix then counter r q + c else counter r q

/-- Line 82: `ix = (x - START_X) * IMAGE_WIDTH / VIEW_WIDTH`, converted to `int`. -/
def pixel_ix (x : K) : ℤ := toInt ((x - START_X) * (IMAGE_WIDTH : K) / VIEW_WIDTH)

/-- Line 83: `iy = (y - START_Y) * IMAGE_HEIGHT / VIEW_HEIGHT`, converted to `int`. -/
def pixel_iy (y : K) : ℤ := toInt ((y - START_Y) * (IMAGE_HEIGHT : K) / VIEW_HEIGHT)

/-- The condition of line 84. -/
def out_of_image (ix iy : ℤ) : Bool :=
  decide (ix < 0 ∨ ix ≥ IMAGE_WIDTH ∨ iy < 0 ∨ iy ≥ IMAGE_HEIGHT)

/-- The `for` loop of `process_point`, with `n = MAX_ITERATIONS - i` iterations still
to run and `z` the current value of the local `z`. -/
def process_loop (c : Cplx K) : ℕ → Cplx K → Grid K → Grid K
  | 0, _, counter => counter
  | n + 1, z, counter =>
    let z := z * z + c
    let x := z.re
    let y := z.im
    let ix := pixel_ix x
    let iy := pixel_iy y
    if out_of_image ix iy then counter
    else process_loop c n z (counter.add iy ix c)

def process_point (counter : Grid K) (x y : K) : Grid K :=
  let c : Cplx K := ⟨x, y⟩
  let z := c
  let within := in_set c
  if within = 0 then counter
  else process_loop c MAX_ITERATIONS z counter

/-- The pixel of `z_k` lies outside `[0, IMAGE_WIDTH) × [0, IMAGE_HEIGHT)`. -/
def orbit_out (c : Cplx K) (k : ℕ) : Bool :=
  out_of_image (pixel_ix (orbit c k).re) (pixel_iy (orbit c k).im)

/-- `J` is the least `k` in `1 .. MAX_ITERATIONS` whose pixel is outside the image, or
`MAX_ITERATIONS + 1` when there is no such `k`. -/
def IsFirstOut (c : Cplx K) (J : ℕ) : Prop :=
  1 ≤ J ∧ J ≤ MAX_ITERATIONS + 1 ∧
  (∀ k, 1 ≤ k → k < J → orbit_out c k = false) ∧
  (J ≤ MAX_ITERATIONS → orbit_out c J = true)

/-- The number of `k` in `1 .. J-1` with `z_k` mapped to the cell in row `iy`,
column `ix`. -/
def visits (c : Cplx K) (J : ℕ) (iy ix : ℤ) : ℕ :=
  ((Finset.Icc 1 (J - 1)).filter
    (fun k => pixel_iy (orbit c k).im = iy ∧ pixel_ix (orbit c k).re = ix)).card

/-! ## The sampling loops (`nebulabrot.c`, lines 91-103) -/

/-- The inner `for` loop of `calculate_nebulabrot` (line 99): while `cx < END_X`, run
the body on `(cx, cy)` and add `STEP_X` to `cx`.  The body `f` acts on the program
state; in the program it is `process_point` acting on `counter`.  `none` when the fuel
runs out. -/
def calculate_row {σ : Type} (f : σ → K → K → σ) (END_X cy : K) : ℕ → K → σ → Option σ
  | 0, _, _ => none
  | fuel + 1, cx, s =>
    if cx < END_X then calculate_row f END_X cy fuel (cx + STEP_X) (f s cx cy)
    else some s

/-- The outer `for` loop of `calculate_nebulabrot` (line 97): while `cy <= END_Y`, run
the inner loop from `cx = START_X` and add `STEP_Y` to `cy`. -/
def calculate_rows {σ : Type} (f : σ → K → K → σ) (END_X END_Y : K) (fuel : ℕ) :
    ℕ → K → σ → Option σ
  | 0, _, _ => none
  | n + 1, cy, s =>
    if cy ≤ END_Y then
      match calculate_row f END_X cy fuel START_X s with
      | none => none
      | some s1 => calculate_rows f END_X END_Y fuel n (cy + STEP_Y) s1
    else some s

/-- The function `calculate_nebulabrot` with the loop body as a parameter (the `printf`
of the row counter is not modelled). -/
def calculate_nebulabrot_with {σ : Type} (f : σ → K → K → σ) (fuel : ℕ) (s : σ) :
    Option σ :=
  let END_X : K := START_X + VIEW_WIDTH
  let END_Y : K := START_Y + VIEW_HEIGHT
  calculate_rows f END_X END_Y fuel fuel START_Y s

def calculate_nebulabrot (fuel : ℕ) (counter : Grid K) : Option (Grid K) :=
  calculate_nebulabrot_with process_point fuel counter

/-- Line 94: `const int TOTAL_ROWS = VIEW_HEIGHT / STEP_Y`. -/
def TOTAL_ROWS (K : Type) [LinearOrderedField K] [FloorRing K] : ℤ :=
  toInt ((VIEW_HEIGHT : K) / STEP_Y)

/-- The samples named in C6, row-major: `(START_X + j*STEP_X, START_Y + i*STEP_Y)` for
`i = 0 .. IMAGE_HEIGHT*PRECISION` and `j = 0 .. IMAGE_WIDTH*PRECISION - 1`. -/
def samples : List (K × K) :=
  (List.range (IMAGE_HEIGHT * PRECISION + 1)).flatMap fun (i : ℕ) =>
    (List.range (IMAGE_WIDTH * PRECISION)).map fun (j : ℕ) =>
      ((START_X : K) + (j : K) * STEP_X, (START_Y : K) + (i : K) * STEP_Y)

/-! ## The colour model (`colors.c`) -/

/-- Conversion of a `double` to `unsigned char`: truncation toward zero, then the low
eight bits. -/
def toUChar (d : K) : ℤ := toInt d % 256

/-- `HSV2RGB` (lines 3-30).  `color` is the value of `*color` on entry; the result is
its value on return.  The arguments are the values of the `unsigned` parameters; the
`double` arithmetic involves rationals only, so it is carried out in `ℚ`. -/
def HSV2RGB (color : COLOR) (i_hue sat val : ℕ) : COLOR :=
  if sat = 0 then ⟨val, val, val⟩
  else
    let hue : ℚ := (i_hue : ℚ)
    let hue : ℚ := hue / 60.0
    let ii : ℤ := toInt hue
    let fr : ℚ := hue - ii
    let c1 : ℤ := (Int.tdiv ((val : ℤ) * (255 - (sat : ℤ))) 255) % 256
    let c2 : ℤ := toUChar (((val : ℚ) * (255 - (sat : ℚ) * fr)) / 255)
    let c3 : ℤ := toUChar (((val : ℚ) * (255 - (sat : ℚ) * (1.0 - fr))) / 255)
    match ii with
    | 0 => ⟨val, c3, c1⟩
    | 1 => ⟨c2, val, c1⟩
    | 2 => ⟨c1, val, c3⟩
    | 3 => ⟨c1, c2, val⟩
    | 4 => ⟨c3, c1, val⟩
    | 5 => ⟨val, c1, c2⟩
    | _ => color

/-- The locals of `HSL2RGB` declared inside the block `if (v > 0)` (lines 36-48),
together with `v`. -/
structure HSLLocals (K : Type) where
  v : K
  m : K
  sv : K
  sextant : ℤ
  fract : K
  vsf : K
  mid1 : K
  mid2 : K

/-- Line 34 of `HSL2RGB`: `v = (l <= 0.5) ? (l * (1.0 + sl)) : (l + sl - l * sl)`. -/
def hsl_v (sl l : K) : K := if l ≤ 0.5 then l * (1.0 + sl) else l + sl - l * sl

/-- Lines 41-48 of `HSL2RGB`. -/
def HSL2RGB_locals (h sl l : K) : HSLLocals K :=
  let v := hsl_v sl l
  let m := l + l - v
  let sv := (v - m) / v
  let h := h * 6.0
  let sextant := toInt h
  let fract := h - (sextant : K)
  let vsf := v * sv * fract
  let mid1 := m + vsf
  let mid2 := v - vsf
  ⟨v, m, sv, sextant, fract, vsf, mid1, mid2⟩

/-- The values of the locals `r`, `g`, `b` of `HSL2RGB` when line 58 is reached. -/
def HSL2RGB_channels (h sl l : K) : K × K × K :=
  let v := hsl_v sl l
  if v > 0 then
    let t := HSL2RGB_locals h sl l
    match t.sextant with
    | 0 => (t.v, t.mid1, t.m)
    | 1 => (t.mid2, t.v, t.m)
    | 2 => (t.m, t.v, t.mid1)
    | 3 => (t.m, t.mid2, t.v)
    | 4 => (t.mid1, t.m, t.v)
    | 5 => (t.v, t.m, t.mid2)
    | _ => (l, l, l)
  else (l, l, l)

/-- `HSL2RGB` (lines 32-61).  All three fields of `*color` are written on every path,
so the previous contents of `*color` are not an input. -/
def HSL2RGB (h sl l : K) : COLOR :=
  let rgb := HSL2RGB_channels h sl l
  ⟨toUChar (rgb.1 * 255.0), toUChar (rgb.2.1 * 255.0), toUChar (rgb.2.2 * 255.0)⟩

/-- `HSL2RGB` with the rounding of the three products of lines 58-60 made explicit:
the code converts to `unsigned char` the double nearest to `r * 255.0`, and `rnd` maps
the exact product to that double.  `HSL2RGB` is the case `rnd = id` of exact products. -/
def HSL2RGB_rounded (rnd : K → K) (h sl l : K) : COLOR :=
  let rgb := HSL2RGB_channels h sl l
  ⟨toUChar (rnd (rgb.1 * 255.0)), toUChar (rnd (rgb.2.1 * 255.0)),
    toUChar (rnd (rgb.2.2 * 255.0))⟩

/-- Rounding to the nearest multiple of `2^-45`, the spacing of the doubles in
`[128, 256)`: what round-to-nearest does to a product in that range (ties apart). -/
def round_binade7 (x : ℚ) : ℚ := ((⌊x * 2 ^ 45 + 1 / 2⌋ : ℤ) : ℚ) / 2 ^ 45

/-- Conversion to `unsigned char` of a `double` that is NaN or infinite.  The C standard
leaves this conversion undefined; the x86-64 conversion instruction yields `INT_MIN`,
whose low eight bits are 0, and 0 is the byte the program stores. -/
def nonfinite_byte : ℤ := 0

/-- `HSL2RGB` called with a lightness `l` that is NaN or `-inf`.  For NaN the test
`l <= 0.5` of line 34 fails, `v = l + sl - l * sl` is NaN and the test `v > 0` of line
35 fails; for `-inf` the test `l <= 0.5` holds, `v = l * (1.0 + sl)` is `-inf` and
`v > 0` fails.  Either way lines 36-57 are skipped, `r = g = b = l` keep the default
of line 33, and each product of lines 58-60 is again NaN or `-inf`. -/
def HSL2RGB_nonfinite : COLOR := ⟨nonfinite_byte, nonfinite_byte, nonfinite_byte⟩

/-! ## The renderer (`nebulabrot.c`, lines 105-132)

`cabs`, `carg`, `cbrt` and `M_PI` come from the C library and are parameters of the
model. -/

/-- Line 106; `cbrt` is the C library's cube root. -/
def scale_function (cbrt : K → K) (x : K) : K := cbrt (1.0 - sqr (x - 1.0))

/-- Pass 1 (lines 112-118): the final value of `max_abs`. -/
def max_abs_of (cabs : Cplx K → K) (counter : Grid K) : K :=
  (List.range IMAGE_HEIGHT).foldl
    (fun (acc : K) (y : ℕ) => (List.range IMAGE_WIDTH).foldl
      (fun (acc : K) (x : ℕ) => max_ acc (cabs (counter (y : ℤ) (x : ℤ)))) acc) 0.0

/-- Line 125: `h = (carg(c) + M_PI) / (2.0 * M_PI)`. -/
def render_hue (carg : Cplx K → K) (pi : K) (c : Cplx K) : K :=
  (carg c + pi) / (2.0 * pi)

/-- The operator `/` on doubles.  With a non-zero divisor the result is the quotient;
with divisor zero IEEE 754 gives NaN (for `0 / 0`) or an infinity, which is not a number
of the model and is written `none`. -/
def fdiv (a b : K) : Option K := if b = 0 then none else some (a / b)

/-- Line 127: `l = scale_function(cabs(c) / max_abs)`.  The code has no test of
`max_abs`: the division is carried out on every path.  When the quotient is NaN or
`+inf`, `scale_function` returns NaN or `-inf`, again written `none`. -/
def render_lightness (cabs : Cplx K → K) (cbrt : K → K) (max_abs : K) (c : Cplx K) :
    Option K :=
  match fdiv (cabs c) max_abs with
  | none => none
  | some ratio => some (scale_function cbrt ratio)

/-- Pass 2 (lines 122-131): the colour stored in `image[y][x]`, for `0 <= y <
IMAGE_HEIGHT` and `0 <= x < IMAGE_WIDTH`.  Every pixel is written, so the result is
`some` colour on every path. -/
def render_nebulabrot (cabs carg : Cplx K → K) (cbrt : K → K) (pi : K)
    (counter : Grid K) (y x : ℤ) : Option COLOR :=
  let max_abs := max_abs_of cabs counter
  let c := counter y x
  let h := render_hue carg pi c
  let s : K := 0.6
  match render_lightness cabs cbrt max_abs c with
  | none => some HSL2RGB_nonfinite
  | some l => some (HSL2RGB h s l)

/-! ## Variants used to state properties of the code -/

/-- The function `in_set` with the iteration cap `MAX_ITERATIONS` as a parameter. -/
def in_set_cap (cap : ℕ) (c : Cplx K) : ℤ :=
  let z := c
  let x := c.re
  let y := c.im
  if in_cardioid x y || in_bulb x y then 1
  else in_set_loop c cap z

/-- The function `in_set` with the early return of line 51-53 removed: the iterative
bailout loop alone. -/
def in_set_loop_only (c : Cplx K) : ℤ :=
  let z := c
  in_set_loop c MAX_ITERATIONS z

/-- The assignment made by the `switch` of `HSL2RGB` (lines 49-56) for given values
of the locals `sextant` and `fract`, with `v`, `m`, `sv`, `vsf`, `mid1`, `mid2` computed
from them as in lines 34-48. -/
def HSL2RGB_sector (sextant : ℤ) (fract : K) (sl l : K) : K × K × K :=
  let v := hsl_v sl l
  let m := l + l - v
  let sv := (v - m) / v
  let vsf := v * sv * fract
  let mid1 := m + vsf
  let mid2 := v - vsf
  match sextant with
  | 0 => (v, mid1, m)
  | 1 => (mid2, v, m)
  | 2 => (m, v, mid1)
  | 3 => (m, mid2, v)
  | 4 => (mid1, m, v)
  | 5 => (v, m, mid2)
  | _ => (l, l, l)

/-- The `for` loop of `process_point` with the bailout test of lines 76-78, which the
source has commented out, put back at the head of the body. -/
def process_loop_bailout (c : Cplx K) : ℕ → Cplx K → Grid K → Grid K
  | 0, _, counter => counter
  | n + 1, z, counter =>
    if cabs_gt z BAILOUT then counter
    else
      let z := z * z + c
      let x := z.re
      let y := z.im
      let ix := pixel_ix x
      let iy := pixel_iy y
      if out_of_image ix iy then counter
      else process_loop_bailout c n z (counter.add iy ix c)

/-- The function `process_point` with the commented-out bailout test put back. -/
def process_point_bailout (counter : Grid K) (x y : K) : Grid K :=
  let c : Cplx K := ⟨x, y⟩
  let z := c
  let within := in_set c
  if within = 0 then counter
  else process_loop_bailout c MAX_ITERATIONS z counter

end Defs

/-! ## Theorems -/

section Proofs

variable {K : Type} [LinearOrderedField K] [FloorRing K]

/-- The encoding of `cabs(z) > r` agrees with the square root over the reals. -/
theorem cabs_gt_iff_sqrt (z : Cplx ℝ) (r : ℝ) :
    cabs_gt z r = true ↔ r < Real.sqrt (z.re * z.re + z.im * z.im) := by
  have hn : 0 ≤ z.re * z.re + z.im * z.im := 
    add_nonneg (mul_self_nonneg _) (mul_self_nonneg _)
  simp only [cabs_gt, decide_eq_true_eq]
  constructor
  · rintro (h | h)
    · exact lt_of_lt_of_le h (Real.sqrt_nonneg _)
    · by_cases hr : 0 ≤ r
      · rw [Real.lt_sqrt hr, pow_two]; exact h
      · exact lt_of_lt_of_le (not_le.mp hr) (Real.sqrt_nonneg _)
  · intro h
    by_cases hr : 0 ≤ r
    · right
      rw [Real.lt_sqrt hr, pow_two] at h; exact h
    · left; exact not_le.mp hr

/-- The loop of `in_set` started at `z_j` with `n` iterations left returns 0 exactly
when one of `z_j .. z_{j+n-1}` exceeds the bailout radius, and 1 otherwise. -/
theorem in_set_loop_spec (c : Cplx K) (n j : ℕ) :
    (in_set_loop c n (orbit c j) = 0 ↔
        ∃ k, j ≤ k ∧ k < j + n ∧ cabs_gt (orbit c k) BAILOUT = true) ∧
    (in_set_loop c n (orbit c j) = 1 ↔
        ¬ ∃ k, j ≤ k ∧ k < j + n ∧ cabs_gt (orbit c k) BAILOUT = true) := by
  induction n generalizing j with
  | zero =>
    simp only [in_set_loop]
    constructor
    · constructor
      · intro h; exact absurd h (by decide)
      · rintro ⟨k, h1, h2, _⟩; omega
    · constructor
      · rintro _ ⟨k, h1, h2, _⟩; omega
      · intro _; trivial
  | succ n ih =>
    simp only [in_set_loop]
    by_cases hz : cabs_gt (orbit c j) BAILOUT = true
    · simp only [hz, if_true]
      have hex : ∃ k, j ≤ k ∧ k < j + (n + 1) ∧ cabs_gt (orbit c k) BAILOUT = true :=
        ⟨j, le_refl _, by omega, hz⟩
      constructor
      · exact ⟨fun _ => hex, fun _ => trivial⟩
      · constructor
        · intro h; exact absurd h (by decide)
        · intro h; exact absurd hex h
    · simp only [hz]
      have hstep : orbit c j * orbit c j + c = orbit c (j + 1) := rfl
      rw [if_neg (by simp), hstep]
      have key : (∃ k, j ≤ k ∧ k < j + (n + 1) ∧ cabs_gt (orbit c k) BAILOUT = true) ↔
          ∃ k, j + 1 ≤ k ∧ k < j + 1 + n ∧ cabs_gt (orbit c k) BAILOUT = true := by
        constructor
        · rintro ⟨k, h1, h2, h3⟩
          rcases Nat.eq_or_lt_of_le h1 with h | h
          · subst h; exact absurd h3 hz
          · exact ⟨k, h, by omega, h3⟩
        · rintro ⟨k, h1, h2, h3⟩
          exact ⟨k, by omega, by omega, h3⟩
      rw [key]
      exact ih (j + 1)

/-- C1: `in_set c` returns 0 exactly when `c` fails the cardioid test and the bulb test
and some `z_k` with `k < MAX_ITERATIONS` has `|z_k| > BAILOUT`; in every other case it
returns 1.  The function is total, and the points examined are
`z_0 .. z_{MAX_ITERATIONS-1}`. -/
theorem in_set_spec (c : Cplx K) :
    (in_set c = 0 ↔
        (in_cardioid c.re c.im = false ∧ in_bulb c.re c.im = false ∧
          ∃ k, k < MAX_ITERATIONS ∧ cabs_gt (orbit c k) BAILOUT = true)) ∧
    (in_set c = 1 ↔
        ¬ (in_cardioid c.re c.im = false ∧ in_bulb c.re c.im = false ∧
          ∃ k, k < MAX_ITERATIONS ∧ cabs_gt (orbit c k) BAILOUT = true)) := by
  have hl := in_set_loop_spec c MAX_ITERATIONS 0
  simp only [Nat.zero_le, true_and, Nat.zero_add] at hl
  have h0 : orbit c 0 = c := rfl
  rw [h0] at hl
  unfold in_set
  by_cases hs : (in_cardioid c.re c.im || in_bulb c.re c.im) = true
  · simp only [hs, if_true]
    have hs2 : ¬ (in_cardioid c.re c.im = false ∧ in_bulb c.re c.im = false ∧
          ∃ k, k < MAX_ITERATIONS ∧ cabs_gt (orbit c k) BAILOUT = true) := by
      rintro ⟨h1, h2, _⟩
      simp [h1, h2] at hs
    constructor
    · constructor
      · intro h; exact absurd h (by decide)
      · intro h; exact absurd h hs2
    · exact ⟨fun _ => hs2, fun _ => trivial⟩
  · have hc : in_cardioid c.re c.im = false := by
      cases h : in_cardioid c.re c.im <;> simp_all
    have hb : in_bulb c.re c.im = false := by
      cases h : in_bulb c.re c.im <;> simp_all
    simp only [hc, hb, Bool.or_self, Bool.false_eq_true, if_false, true_and]
    exact hl

/-! ### The orbit accumulator -/

theorem Cplx.add_re (a b : Cplx K) : (a + b).re = a.re + b.re := rfl

theorem Cplx.add_im (a b : Cplx K) : (a + b).im = a.im + b.im := rfl

theorem Cplx.zero_re : (0 : Cplx K).re = 0 := rfl

theorem Cplx.zero_im : (0 : Cplx K).im = 0 := rfl

theorem Cplx.add_comm (a b : Cplx K) : a + b = b + a := by
  ext
  · simp only [Cplx.add_re]; ring
  · simp only [Cplx.add_im]; ring

theorem Cplx.add_assoc (a b d : Cplx K) : a + b + d = a + (b + d) := by
  ext
  · simp only [Cplx.add_re]; ring
  · simp only [Cplx.add_im]; ring

theorem Cplx.add_zero (a : Cplx K) : a + 0 = a := by
  ext
  · simp only [Cplx.add_re, Cplx.zero_re]; ring
  · simp only [Cplx.add_im, Cplx.zero_im]; ring

theorem Cplx.zero_add (a : Cplx K) : 0 + a = a := by
  rw [Cplx.add_comm, Cplx.add_zero]

theorem Cplx.nsmul_zero (c : Cplx K) : Cplx.nsmul 0 c = 0 := by
  ext <;> simp [Cplx.nsmul, Cplx.zero_re, Cplx.zero_im]

theorem Cplx.nsmul_succ (n : ℕ) (c : Cplx K) :
    Cplx.nsmul (n + 1) c = c + Cplx.nsmul n c := by
  ext
  · simp only [Cplx.nsmul, Cplx.add_re]; push_cast; ring
  · simp only [Cplx.nsmul, Cplx.add_im]; push_cast; ring

/-- The number of `k` with `j < k < J` whose orbit point is mapped to the cell. -/
theorem hits_step (c : Cplx K) (j J : ℕ) (iy ix : ℤ) (h : j + 1 < J) :
    ((Finset.Ioo j J).filter
        (fun k => pixel_iy (orbit c k).im = iy ∧ pixel_ix (orbit c k).re = ix)).card =
      (if pixel_iy (orbit c (j + 1)).im = iy ∧ pixel_ix (orbit c (j + 1)).re = ix
        then 1 else 0) +
      ((Finset.Ioo (j + 1) J).filter
        (fun k => pixel_iy (orbit c k).im = iy ∧ pixel_ix (orbit c k).re = ix)).card := by
  have hins : Finset.Ioo j J = insert (j + 1) (Finset.Ioo (j + 1) J) := by
    ext k
    simp only [Finset.mem_Ioo, Finset.mem_insert]
    omega
  have hnot : j + 1 ∉ Finset.Ioo (j + 1) J := by
    simp only [Finset.mem_Ioo]; omega
  rw [hins, Finset.filter_insert]
  split_ifs with hp
  · rw [Finset.card_insert_of_not_mem]
    · ring
    · intro hm
      exact hnot (Finset.mem_of_mem_filter _ hm)
  · ring

/-- The loop of `process_point`, started at `z_j` with `n` iterations left, adds the
seed once for every `k` with `j < k < J` whose orbit point is mapped to the cell, where
`J` is the first index after `j` that leaves the image (or `j + n + 1`). -/
theorem process_loop_spec (c : Cplx K) (n : ℕ) :
    ∀ (j J : ℕ) (G : Grid K) (iy ix : ℤ), j < J → J ≤ j + n + 1 →
      (∀ k, j < k → k < J → orbit_out c k = false) →
      (J ≤ j + n → orbit_out c J = true) →
      process_loop c n (orbit c j) G iy ix =
        G iy ix + Cplx.nsmul ((Finset.Ioo j J).filter
          (fun k => pixel_iy (orbit c k).im = iy ∧ pixel_ix (orbit c k).re = ix)).card c := by
  induction n with
  | zero =>
    intro j J G iy ix hjJ hJn _ _
    have hJ : J = j + 1 := by omega
    subst hJ
    have he : Finset.Ioo j (j + 1) = ∅ := by
      ext k; simp only [Finset.mem_Ioo, Finset.not_mem_empty, iff_false]; omega
    simp [process_loop, he, Cplx.nsmul_zero, Cplx.add_zero]
  | succ n ih =>
    intro j J G iy ix hjJ hJn hin hout
    have hstep : orbit c j * orbit c j + c = orbit c (j + 1) := rfl
    simp only [process_loop, hstep]
    rcases Nat.eq_or_lt_of_le (Nat.succ_le_of_lt hjJ) with hJ | hJ
    · have hJ2 : J = j + 1 := hJ.symm
      subst hJ2
      have ho := hout (by omega)
      unfold orbit_out at ho
      have he : Finset.Ioo j (j + 1) = ∅ := by
        ext k; simp only [Finset.mem_Ioo, Finset.not_mem_empty, iff_false]; omega
      simp [ho, he, Cplx.nsmul_zero, Cplx.add_zero]
    · have hi := hin (j + 1) (by omega) hJ
      unfold orbit_out at hi
      rw [hi]
      simp only [Bool.false_eq_true, if_false]
      rw [ih (j + 1) J _ iy ix hJ (by omega) (fun k h1 h2 => hin k (by omega) h2)
        (fun h => hout (by omega))]
      rw [hits_step c j J iy ix hJ]
      unfold Grid.add
      by_cases hp : pixel_iy (orbit c (j + 1)).im = iy ∧ pixel_ix (orbit c (j + 1)).re = ix
      · have hp2 : iy = pixel_iy (orbit c (j + 1)).im ∧ ix = pixel_ix (orbit c (j + 1)).re :=
          ⟨hp.1.symm, hp.2.symm⟩
        rw [if_pos hp2, if_pos hp, Nat.add_comm 1, Cplx.nsmul_succ, Cplx.add_assoc]
      · have hp2 : ¬ (iy = pixel_iy (orbit c (j + 1)).im ∧
            ix = pixel_ix (orbit c (j + 1)).re) := fun h => hp ⟨h.1.symm, h.2.symm⟩
        rw [if_neg hp2, if_neg hp, Nat.zero_add]

/-- Some `J` is the first out-of-image index: the description in C2 always applies. -/
theorem exists_isFirstOut (c : Cplx K) : ∃ J, IsFirstOut c J := by
  classical
  by_cases h : ∃ k, 1 ≤ k ∧ k ≤ MAX_ITERATIONS ∧ orbit_out c k = true
  · refine ⟨Nat.find h, (Nat.find_spec h).1, ?_, ?_, ?_⟩
    · have := (Nat.find_spec h).2.1; omega
    · intro k hk1 hk2
      have hmin := Nat.find_min h hk2
      have hle : k ≤ MAX_ITERATIONS := by
        have := (Nat.find_spec h).2.1; omega
      cases hb : orbit_out c k
      · rfl
      · exact absurd ⟨hk1, hle, hb⟩ hmin
    · intro _; exact (Nat.find_spec h).2.2
  · refine ⟨MAX_ITERATIONS + 1, by omega, le_refl _, ?_, ?_⟩
    · intro k hk1 hk2
      cases hb : orbit_out c k
      · rfl
      · exact absurd ⟨k, hk1, by omega, hb⟩ h
    · intro h2; omega

/-- C2: for a seed `c = x + i*y` that `in_set` retains and any starting grid `G`,
`process_point` leaves in each cell `G` plus `n(cell)` copies of the seed `c`, where `J`
is the first index in `1 .. MAX_ITERATIONS` whose pixel is outside the image (or
`MAX_ITERATIONS + 1`) and `n(cell)` counts the `k` in `1 .. J-1` with `z_k` mapped to the
cell; in particular a cell outside the image is left as it was. -/
theorem process_point_retained (G : Grid K) (x y : K) (J : ℕ)
    (hret : in_set (⟨x, y⟩ : Cplx K) = 1) (hJ : IsFirstOut (⟨x, y⟩ : Cplx K) J) :
    (∀ iy ix : ℤ, process_point G x y iy ix =
        G iy ix + Cplx.nsmul (visits ⟨x, y⟩ J iy ix) ⟨x, y⟩) ∧
    (∀ iy ix : ℤ, out_of_image ix iy = true → process_point G x y iy ix = G iy ix) := by
  obtain ⟨h1, h2, h3, h4⟩ := hJ
  have hIcc : Finset.Icc 1 (J - 1) = Finset.Ioo 0 J := by
    ext k
    simp only [Finset.mem_Icc, Finset.mem_Ioo]
    omega
  have main : ∀ iy ix : ℤ, process_point G x y iy ix =
      G iy ix + Cplx.nsmul (visits ⟨x, y⟩ J iy ix) ⟨x, y⟩ := by
    intro iy ix
    unfold process_point
    simp only [hret, one_ne_zero, if_false]
    have h0 : (⟨x, y⟩ : Cplx K) = orbit ⟨x, y⟩ 0 := rfl
    unfold visits
    rw [hIcc]
    conv_lhs => rw [h0]
    exact process_loop_spec (orbit ⟨x, y⟩ 0) MAX_ITERATIONS 0 J G iy ix (by omega) (by omega)
      (fun k hk1 hk2 => h3 k (by omega) hk2) (fun h => h4 (by omega))
  refine ⟨main, ?_⟩
  intro iy ix hout
  rw [main]
  have hz : visits (⟨x, y⟩ : Cplx K) J iy ix = 0 := by
    unfold visits
    rw [Finset.card_eq_zero, Finset.filter_eq_empty_iff]
    intro k hk hp
    simp only [Finset.mem_Icc] at hk
    have := h3 k hk.1 (by omega)
    unfold orbit_out at this
    rw [hp.1, hp.2, hout] at this
    exact absurd this (by decide)
  rw [hz, Cplx.nsmul_zero, Cplx.add_zero]

theorem orbit_neg_one (k : ℕ) :
    orbit (⟨-1, 0⟩ : Cplx ℚ) k = if k % 2 = 0 then ⟨-1, 0⟩ else ⟨0, 0⟩ := by
  induction k with
  | zero => rfl
  | succ k ih =>
    have hstep : orbit (⟨-1, 0⟩ : Cplx ℚ) (k + 1) =
        orbit ⟨-1, 0⟩ k * orbit ⟨-1, 0⟩ k + ⟨-1, 0⟩ := rfl
    rw [hstep, ih]
    rcases Nat.mod_two_eq_zero_or_one k with h | h
    · have h2 : (k + 1) % 2 = 1 := by omega
      rw [h, h2]
      simp only [if_true, one_ne_zero, if_false]
      ext
      · show (-1 : ℚ) * (-1) - 0 * 0 + (-1) = 0
        norm_num
      · show (-1 : ℚ) * 0 + 0 * (-1) + 0 = 0
        norm_num
    · have h2 : (k + 1) % 2 = 0 := by omega
      rw [h, h2]
      simp only [if_true, one_ne_zero, if_false]
      ext
      · show (0 : ℚ) * 0 - 0 * 0 + (-1) = -1
        norm_num
      · show (0 : ℚ) * 0 + 0 * 0 + 0 = 0
        norm_num

theorem orbit_out_neg_one (k : ℕ) : orbit_out (⟨-1, 0⟩ : Cplx ℚ) k = false := by
  unfold orbit_out
  rw [orbit_neg_one]
  split_ifs <;>
    norm_num [out_of_image, pixel_ix, pixel_iy, toInt, START_X, START_Y, VIEW_CENTER_X,
      VIEW_CENTER_Y, VIEW_WIDTH, VIEW_HEIGHT, IMAGE_WIDTH, IMAGE_HEIGHT, SCALE]

/-- The seed `-1` is retained (bulb shortcut), its orbit `-1, 0, -1, 0, ...` never
leaves the image, and C2 applies to it with `J = MAX_ITERATIONS + 1`. -/
theorem process_point_retained_witness :
    in_set (⟨-1, 0⟩ : Cplx ℚ) = 1 ∧ IsFirstOut (⟨-1, 0⟩ : Cplx ℚ) (MAX_ITERATIONS + 1) ∧
    ((∀ iy ix : ℤ, process_point (fun _ _ => (0 : Cplx ℚ)) (-1) 0 iy ix =
        (0 : Cplx ℚ) + Cplx.nsmul (visits (⟨-1, 0⟩ : Cplx ℚ) (MAX_ITERATIONS + 1) iy ix)
          (⟨-1, 0⟩ : Cplx ℚ)) ∧
    (∀ iy ix : ℤ, out_of_image ix iy = true →
        process_point (fun _ _ => (0 : Cplx ℚ)) (-1) 0 iy ix = 0)) := by
  have h1 : in_set (⟨-1, 0⟩ : Cplx ℚ) = 1 := by
    norm_num [in_set, in_cardioid, in_bulb, sqr]
  have h2 : IsFirstOut (⟨-1, 0⟩ : Cplx ℚ) (MAX_ITERATIONS + 1) :=
    ⟨by omega, le_refl _, fun k _ _ => orbit_out_neg_one k, fun h => by omega⟩
  exact ⟨h1, h2, process_point_retained (fun _ _ => (0 : Cplx ℚ)) (-1) 0 _ h1 h2⟩

/-- C3: for a seed that `in_set` discards (returns 0), `process_point` leaves every
cell of the accumulation grid unchanged. -/
theorem process_point_discarded (G : Grid K) (x y : K)
    (h : in_set (⟨x, y⟩ : Cplx K) = 0) : process_point G x y = G := by
  unfold process_point
  simp only [h, if_true]

/-- The seed `4 + 0i` is discarded at the first bailout test, and C3 applies to it. -/
theorem process_point_discarded_witness :
    in_set (⟨4, 0⟩ : Cplx ℚ) = 0 ∧
    process_point (fun _ _ => (⟨1, 2⟩ : Cplx ℚ)) (4 : ℚ) 0 =
      (fun _ _ => (⟨1, 2⟩ : Cplx ℚ)) := by
  have h : in_set (⟨4, 0⟩ : Cplx ℚ) = 0 := by
    refine (in_set_spec (⟨4, 0⟩ : Cplx ℚ)).1.mpr ⟨?_, ?_, 0, ?_, ?_⟩
    · norm_num [in_cardioid, sqr]
    · norm_num [in_bulb, sqr]
    · norm_num [MAX_ITERATIONS]
    · norm_num [cabs_gt, orbit, BAILOUT]
  exact ⟨h, process_point_discarded _ 4 0 h⟩

/-- What the loop adds to a grid does not depend on the grid. -/
theorem process_loop_add (c : Cplx K) (n : ℕ) :
    ∀ (z : Cplx K) (G : Grid K) (iy ix : ℤ),
      process_loop c n z G iy ix =
        G iy ix + process_loop c n z (fun _ _ => 0) iy ix := by
  induction n with
  | zero =>
    intro z G iy ix
    simp only [process_loop, Cplx.add_zero]
  | succ n ih =>
    intro z G iy ix
    simp only [process_loop]
    split_ifs with ho
    · rw [Cplx.add_zero]
    · rw [ih _ (Grid.add G _ _ c), ih _ (Grid.add (fun _ _ => 0) _ _ c)]
      unfold Grid.add
      split_ifs
      · rw [Cplx.zero_add, Cplx.add_assoc]
      · rw [Cplx.zero_add]

/-- What `process_point` adds to a grid does not depend on the grid. -/
theorem process_point_add (G : Grid K) (x y : K) (iy ix : ℤ) :
    process_point G x y iy ix = G iy ix + process_point (fun _ _ => 0) x y iy ix := by
  unfold process_point
  split_ifs
  · rw [Cplx.add_zero]
  · exact process_loop_add _ _ _ _ _ _

/-- C4: accumulation is order-independent and additive: processing seed `a` then seed
`b` gives the same grid as `b` then `a`, and from the all-zero grid the result is the
cell-wise sum of the grids obtained from `a` alone and from `b` alone. -/
theorem process_point_comm_additive (G : Grid K) (ax ay bx by_ : K) :
    process_point (process_point G ax ay) bx by_ =
      process_point (process_point G bx by_) ax ay ∧
    ∀ iy ix : ℤ, process_point (process_point (fun _ _ => 0) ax ay) bx by_ iy ix =
      process_point (fun _ _ => 0) ax ay iy ix +
        process_point (fun _ _ => 0) bx by_ iy ix := by
  constructor
  · funext iy ix
    rw [process_point_add (process_point G ax ay), process_point_add G ax ay,
      process_point_add (process_point G bx by_), process_point_add G bx by_,
      Cplx.add_assoc, Cplx.add_assoc,
      Cplx.add_comm (process_point (fun _ _ => 0) ax ay iy ix)]
  · intro iy ix
    rw [process_point_add (process_point (fun _ _ => 0) ax ay)]

/-! ### The pixel index -/

/-- On and to the right of the origin the conversion to `int` is the floor. -/
theorem toInt_of_nonneg (d : K) (h : 0 ≤ d) : toInt d = ⌊d⌋ := by
  unfold toInt; rw [if_pos h]

/-- Strictly between -1 and 0 the conversion to `int` gives 0, while the floor is -1. -/
theorem toInt_of_neg_frac (d : K) (h1 : -1 < d) (h2 : d < 0) :
    toInt d = 0 ∧ ⌊d⌋ = -1 := by
  constructor
  · unfold toInt
    rw [if_neg (not_le.mpr h2), Int.ceil_eq_iff]
    constructor
    · simpa using h1
    · simpa using h2.le
  · rw [Int.floor_eq_iff]
    constructor
    · simpa using h1.le
    · simpa using h2

/-- C5 (evaluation at the failing input): the orbit point `-2.501 - 1.125i` lies left of
`START_X` and below `START_Y`, the floors of the two scaled coordinates are `-1`, and yet
lines 82-83 compute `ix = 0` and `iy = 0`, which line 84 accepts as inside the image. -/
theorem pixel_index_below_origin :
    (-2501 / 1000 : ℚ) < START_X ∧ (-1125 / 1000 : ℚ) < START_Y ∧
    ⌊((-2501 / 1000 : ℚ) - START_X) * (IMAGE_WIDTH : ℚ) / VIEW_WIDTH⌋ = -1 ∧
    ⌊((-1125 / 1000 : ℚ) - START_Y) * (IMAGE_HEIGHT : ℚ) / VIEW_HEIGHT⌋ = -1 ∧
    pixel_ix (-2501 / 1000 : ℚ) = 0 ∧ pixel_iy (-1125 / 1000 : ℚ) = 0 ∧
    out_of_image (pixel_ix (-2501 / 1000 : ℚ)) (pixel_iy (-1125 / 1000 : ℚ)) = false := by
  have hx : ((-2501 / 1000 : ℚ) - START_X) * (IMAGE_WIDTH : ℚ) / VIEW_WIDTH = -683 / 1000 := by
    norm_num [START_X, VIEW_CENTER_X, VIEW_WIDTH, IMAGE_WIDTH, SCALE]
  have hy : ((-1125 / 1000 : ℚ) - START_Y) * (IMAGE_HEIGHT : ℚ) / VIEW_HEIGHT = -3 / 8 := by
    norm_num [START_Y, VIEW_CENTER_Y, VIEW_HEIGHT, VIEW_WIDTH, IMAGE_WIDTH, IMAGE_HEIGHT, SCALE]
  have tx := toInt_of_neg_frac (-683 / 1000 : ℚ) (by norm_num) (by norm_num)
  have ty := toInt_of_neg_frac (-3 / 8 : ℚ) (by norm_num) (by norm_num)
  have px : pixel_ix (-2501 / 1000 : ℚ) = 0 := by unfold pixel_ix; rw [hx]; exact tx.1
  have py : pixel_iy (-1125 / 1000 : ℚ) = 0 := by unfold pixel_iy; rw [hy]; exact ty.1
  refine ⟨?_, ?_, ?_, ?_, px, py, ?_⟩
  · norm_num [START_X, VIEW_CENTER_X, VIEW_WIDTH]
  · norm_num [START_Y, VIEW_CENTER_Y, VIEW_HEIGHT, VIEW_WIDTH, IMAGE_WIDTH, IMAGE_HEIGHT, SCALE]
  · rw [hx]; exact tx.2
  · rw [hy]; exact ty.2
  · rw [px, py]
    simp [out_of_image, IMAGE_WIDTH, IMAGE_HEIGHT, SCALE]

/-! ### The sampling loops -/

theorem STEP_X_pos : (0 : K) < STEP_X := by
  norm_num [STEP_X, VIEW_WIDTH, IMAGE_WIDTH, SCALE, PRECISION]

theorem STEP_Y_eq_STEP_X : (STEP_Y : K) = STEP_X := by
  norm_num [STEP_X, STEP_Y, VIEW_HEIGHT, VIEW_WIDTH, IMAGE_WIDTH, IMAGE_HEIGHT, SCALE, PRECISION]

theorem STEP_Y_pos : (0 : K) < STEP_Y := by
  rw [STEP_Y_eq_STEP_X]; exact STEP_X_pos

theorem VIEW_WIDTH_eq : (VIEW_WIDTH : K) = ((IMAGE_WIDTH * PRECISION : ℕ) : K) * STEP_X := by
  norm_num [STEP_X, VIEW_WIDTH, IMAGE_WIDTH, SCALE, PRECISION]

theorem VIEW_HEIGHT_eq :
    (VIEW_HEIGHT : K) = ((IMAGE_HEIGHT * PRECISION : ℕ) : K) * STEP_Y := by
  norm_num [STEP_Y, VIEW_HEIGHT, VIEW_WIDTH, IMAGE_WIDTH, IMAGE_HEIGHT, SCALE, PRECISION]

/-- The inner loop started at column `j` with `m` columns left runs the body on the
`m` samples of the row, in order, and stops. -/
theorem calculate_row_spec {σ : Type} (f : σ → K → K → σ) (cy : K) (N : ℕ) :
    ∀ (m j fuel : ℕ) (s : σ), j + m = N → m < fuel →
      calculate_row f ((START_X : K) + (N : K) * STEP_X) cy fuel
          ((START_X : K) + (j : K) * STEP_X) s =
        some (((List.range' j m).map fun (q : ℕ) => ((START_X : K) + (q : K) * STEP_X, cy)).foldl
          (fun t p => f t p.1 p.2) s) := by
  intro m
  induction m with
  | zero =>
    intro j fuel s hj hf
    obtain ⟨fuel1, rfl⟩ : ∃ g, fuel = g + 1 := ⟨fuel - 1, by omega⟩
    have hjN : j = N := by omega
    subst hjN
    simp [calculate_row]
  | succ m ih =>
    intro j fuel s hj hf
    obtain ⟨fuel1, rfl⟩ : ∃ g, fuel = g + 1 := ⟨fuel - 1, by omega⟩
    have hlt : (START_X : K) + (j : K) * STEP_X < (START_X : K) + (N : K) * STEP_X := by
      have hjN : (j : K) < (N : K) := by exact_mod_cast (show j < N by omega)
      have := mul_lt_mul_of_pos_right hjN (STEP_X_pos : (0 : K) < STEP_X)
      linarith
    have hnext : (START_X : K) + (j : K) * STEP_X + STEP_X =
        (START_X : K) + ((j + 1 : ℕ) : K) * STEP_X := by
      push_cast; ring
    simp only [calculate_row, hlt, if_true]
    rw [hnext, ih (j + 1) fuel1 _ (by omega) (by omega), List.range'_succ]
    simp only [List.map_cons, List.foldl_cons]

/-- The outer loop started at row `i` with `m` rows left runs the inner loop on each
of them, in order, and stops. -/
theorem calculate_rows_spec {σ : Type} (f : σ → K → K → σ) (NX NY fuel : ℕ)
    (hfuel : NX < fuel) :
    ∀ (m i n : ℕ) (s : σ), i + m = NY + 1 → m < n →
      calculate_rows f ((START_X : K) + (NX : K) * STEP_X) ((START_Y : K) + (NY : K) * STEP_Y)
          fuel n ((START_Y : K) + (i : K) * STEP_Y) s =
        some (((List.range' i m).flatMap fun (r : ℕ) => (List.range NX).map fun (q : ℕ) =>
            ((START_X : K) + (q : K) * STEP_X, (START_Y : K) + (r : K) * STEP_Y)).foldl
          (fun t p => f t p.1 p.2) s) := by
  intro m
  induction m with
  | zero =>
    intro i n s hi hn
    obtain ⟨n1, rfl⟩ : ∃ g, n = g + 1 := ⟨n - 1, by omega⟩
    have hiN : i = NY + 1 := by omega
    subst hiN
    have hgt : ¬ ((START_Y : K) + ((NY + 1 : ℕ) : K) * STEP_Y ≤
        (START_Y : K) + (NY : K) * STEP_Y) := by
      have := (STEP_Y_pos : (0 : K) < STEP_Y)
      push_cast
      intro h
      linarith
    simp only [calculate_rows, if_neg hgt, List.range'_zero, List.flatMap_nil, List.foldl_nil]
  | succ m ih =>
    intro i n s hi hn
    obtain ⟨n1, rfl⟩ : ∃ g, n = g + 1 := ⟨n - 1, by omega⟩
    have hle : (START_Y : K) + (i : K) * STEP_Y ≤ (START_Y : K) + (NY : K) * STEP_Y := by
      have hiN : (i : K) ≤ (NY : K) := by exact_mod_cast (show i ≤ NY by omega)
      have := mul_le_mul_of_nonneg_right hiN (STEP_Y_pos : (0 : K) < STEP_Y).le
      linarith
    have hnext : (START_Y : K) + (i : K) * STEP_Y + STEP_Y =
        (START_Y : K) + ((i + 1 : ℕ) : K) * STEP_Y := by
      push_cast; ring
    have hstart : (START_X : K) = (START_X : K) + ((0 : ℕ) : K) * STEP_X := by
      push_cast; ring
    have hrow := calculate_row_spec f ((START_Y : K) + (i : K) * STEP_Y) NX NX 0 fuel s
      (by omega) hfuel
    rw [← hstart, ← List.range_eq_range'] at hrow
    simp only [calculate_rows, hle, if_true, hrow]
    rw [hnext, ih (i + 1) n1 _ (by omega) (by omega), List.range'_succ]
    simp only [List.flatMap_cons, List.foldl_append]

/-- The samples of C6 are pairwise distinct. -/
theorem samples_nodup : (samples : List (K × K)).Nodup := by
  unfold samples
  have hx := (STEP_X_pos : (0 : K) < STEP_X)
  have hy := (STEP_Y_pos : (0 : K) < STEP_Y)
  rw [List.nodup_flatMap]
  constructor
  · intro i _
    refine List.Nodup.map ?_ (List.nodup_range _)
    intro a b hab
    simp only [Prod.mk.injEq, add_right_inj, and_true] at hab
    have := mul_right_cancel₀ hx.ne.symm hab
    exact_mod_cast this
  · refine (List.nodup_range _).pairwise_of_forall_ne ?_
    intro a _ b _ hab
    simp only [Function.onFun]
    intro p hp1 hp2
    simp only [List.mem_map] at hp1 hp2
    obtain ⟨j1, _, rfl⟩ := hp1
    obtain ⟨j2, _, h2⟩ := hp2
    simp only [Prod.mk.injEq, add_right_inj] at h2
    have := mul_right_cancel₀ hy.ne.symm h2.2
    exact hab (by exact_mod_cast this.symm)

/-- C6: with the viewport values `main` derives, `STEP_X` and `STEP_Y` are positive and
equal, and (given at least `IMAGE_WIDTH*PRECISION + 1` units of fuel) the loops of
`calculate_nebulabrot` terminate after running the body exactly once, in row-major
order, on each sample `(START_X + j*STEP_X, START_Y + i*STEP_Y)`,
`i = 0 .. IMAGE_HEIGHT*PRECISION` inclusive, `j = 0 .. IMAGE_WIDTH*PRECISION - 1`
(pairwise distinct points): `IMAGE_HEIGHT*PRECISION + 1` rows, one more than
`TOTAL_ROWS`.  The body `f` is arbitrary; in the program it is `process_point`. -/
theorem calculate_nebulabrot_spec {σ : Type} (f : σ → K → K → σ) (s : σ)
    (counter : Grid K) (extra : ℕ) :
    (0 : K) < STEP_X ∧ (0 : K) < STEP_Y ∧ (STEP_X : K) = STEP_Y ∧
    calculate_nebulabrot_with f (IMAGE_WIDTH * PRECISION + 1 + extra) s =
      some ((samples : List (K × K)).foldl (fun t p => f t p.1 p.2) s) ∧
    calculate_nebulabrot (IMAGE_WIDTH * PRECISION + 1 + extra) counter =
      some ((samples : List (K × K)).foldl (fun t p => process_point t p.1 p.2) counter) ∧
    (samples : List (K × K)).Nodup ∧
    (samples : List (K × K)).length =
      (IMAGE_HEIGHT * PRECISION + 1) * (IMAGE_WIDTH * PRECISION) ∧
    TOTAL_ROWS K = ((IMAGE_HEIGHT * PRECISION : ℕ) : ℤ) := by
  have run : ∀ (τ : Type) (g : τ → K → K → τ) (t : τ),
      calculate_nebulabrot_with g (IMAGE_WIDTH * PRECISION + 1 + extra) t =
        some ((samples : List (K × K)).foldl (fun t p => g t p.1 p.2) t) := by
    intro τ g t
    have hstart : (START_Y : K) = (START_Y : K) + ((0 : ℕ) : K) * STEP_Y := by
      push_cast; ring
    have h := calculate_rows_spec g (IMAGE_WIDTH * PRECISION) (IMAGE_HEIGHT * PRECISION)
      (IMAGE_WIDTH * PRECISION + 1 + extra) (by omega) (IMAGE_HEIGHT * PRECISION + 1) 0
      (IMAGE_WIDTH * PRECISION + 1 + extra) t (by omega)
      (by simp only [IMAGE_WIDTH, IMAGE_HEIGHT, SCALE, PRECISION]; omega)
    rw [← hstart, ← List.range_eq_range', ← VIEW_WIDTH_eq, ← VIEW_HEIGHT_eq] at h
    exact h
  refine ⟨STEP_X_pos, STEP_Y_pos, STEP_Y_eq_STEP_X.symm, run σ f s,
    run (Grid K) process_point counter, samples_nodup, ?_, ?_⟩
  · simp [samples, List.length_flatMap, Function.comp_def]
  · unfold TOTAL_ROWS
    have hq : (VIEW_HEIGHT : K) / STEP_Y = ((IMAGE_HEIGHT * PRECISION : ℕ) : K) := by
      rw [VIEW_HEIGHT_eq]
      exact mul_div_cancel_right₀ _ (STEP_Y_pos : (0 : K) < STEP_Y).ne.symm
    rw [hq, toInt_of_nonneg _ (Nat.cast_nonneg _)]
    exact Int.floor_natCast _

/-! ### The colour model -/

theorem toInt_natCast (n : ℕ) : toInt (n : K) = (n : ℤ) := by
  rw [toInt_of_nonneg _ (Nat.cast_nonneg n)]
  exact Int.floor_natCast n

/-- For a hue below 360 the sector index `(int)(hue / 60.0)` is one of `0 .. 5`. -/
theorem HSV2RGB_sector_range (i_hue : ℕ) (h : i_hue < 360) :
    0 ≤ toInt ((i_hue : ℚ) / 60.0) ∧ toInt ((i_hue : ℚ) / 60.0) ≤ 5 := by
  have h0 : (0 : ℚ) ≤ (i_hue : ℚ) / 60.0 := by positivity
  have h1 : (i_hue : ℚ) / 60.0 < ((6 : ℤ) : ℚ) := by
    have : (i_hue : ℚ) < 360 := by exact_mod_cast h
    norm_num
    rw [div_lt_iff₀ (by norm_num)]
    linarith
  rw [toInt_of_nonneg _ h0]
  refine ⟨Int.floor_nonneg.mpr h0, ?_⟩
  have := Int.floor_lt.mpr h1
  omega

/-- C9 (counterexample): with saturation 255 and value 255, hue 360 leaves the colour
`(0, 0, 0)` as it was, while hue 0 writes `(255, 0, 0)`: the sector index is not taken
modulo 6. -/
theorem HSV2RGB_hue_360_differs :
    HSV2RGB ⟨0, 0, 0⟩ 360 255 255 = ⟨0, 0, 0⟩ ∧
    HSV2RGB ⟨0, 0, 0⟩ 0 255 255 = ⟨255, 0, 0⟩ ∧
    HSV2RGB ⟨0, 0, 0⟩ 360 255 255 ≠ HSV2RGB ⟨0, 0, 0⟩ 0 255 255 := by
  have h360 : toInt ((360 : ℚ) / 60.0) = 6 := by
    have : (360 : ℚ) / 60.0 = ((6 : ℕ) : ℚ) := by norm_num
    rw [this, toInt_natCast]; rfl
  have h0 : toInt ((0 : ℚ) / 60.0) = 0 := by
    have : (0 : ℚ) / 60.0 = ((0 : ℕ) : ℚ) := by norm_num
    rw [this, toInt_natCast]; rfl
  have e1 : HSV2RGB ⟨0, 0, 0⟩ 360 255 255 = ⟨0, 0, 0⟩ := by
    unfold HSV2RGB
    simp only [Nat.cast_ofNat]
    rw [h360]
    rfl
  have e2 : HSV2RGB ⟨0, 0, 0⟩ 0 255 255 = ⟨255, 0, 0⟩ := by
    unfold HSV2RGB
    simp only [Nat.cast_ofNat, Nat.cast_zero]
    rw [h0]
    have hz : toUChar ((255 : ℚ) * (255 - 255 * (1.0 - ((0 : ℚ) / 60.0 - ((0 : ℤ) : ℚ)))) / 255)
        = 0 := by
      have : (255 : ℚ) * (255 - 255 * (1.0 - ((0 : ℚ) / 60.0 - ((0 : ℤ) : ℚ)))) / 255
          = ((0 : ℕ) : ℚ) := by norm_num
      unfold toUChar
      rw [this, toInt_natCast]; rfl
    simp only [hz]
    rfl
  refine ⟨e1, e2, ?_⟩
  rw [e1, e2]
  decide

/-- C9 (as amended): `HSV2RGB` does not reduce the sector index modulo 6.  For a
non-zero saturation, hue 0 writes sector 0's assignment `(val, c3, c1)`; for every hue
below 360 (the range the source documents) one of the six cases is taken, so the colour
written does not depend on the previous contents of `*color`; and for hue 360 the index
is 6, no case matches and `*color` is left as it was. -/
theorem HSV2RGB_sector (color : COLOR) (sat val : ℕ) (hs : 1 ≤ sat) :
    HSV2RGB color 0 sat val =
      ⟨val, toUChar (((val : ℚ) * (255 - (sat : ℚ) * (1.0 - 0))) / 255),
        (Int.tdiv ((val : ℤ) * (255 - (sat : ℤ))) 255) % 256⟩ ∧
    (∀ i_hue : ℕ, i_hue < 360 → ∀ color2 : COLOR,
      HSV2RGB color i_hue sat val = HSV2RGB color2 i_hue sat val) ∧
    HSV2RGB color 360 sat val = color := by
  have hs0 : sat ≠ 0 := by omega
  have h360 : toInt ((360 : ℚ) / 60.0) = 6 := by
    have : (360 : ℚ) / 60.0 = ((6 : ℕ) : ℚ) := by norm_num
    rw [this, toInt_natCast]; rfl
  have h0 : toInt ((0 : ℚ) / 60.0) = 0 := by
    have : (0 : ℚ) / 60.0 = ((0 : ℕ) : ℚ) := by norm_num
    rw [this, toInt_natCast]; rfl
  refine ⟨?_, ?_, ?_⟩
  · unfold HSV2RGB
    simp only [if_neg hs0, Nat.cast_zero]
    rw [h0]
    simp only [Int.cast_zero, sub_zero, zero_div]
  · intro i_hue hh color2
    obtain ⟨b0, b5⟩ := HSV2RGB_sector_range i_hue hh
    unfold HSV2RGB
    simp only [if_neg hs0]
    generalize toInt ((i_hue : ℚ) / 60.0) = ii at b0 b5
    have hcases : ii = 0 ∨ ii = 1 ∨ ii = 2 ∨ ii = 3 ∨ ii = 4 ∨ ii = 5 := by omega
    rcases hcases with rfl | rfl | rfl | rfl | rfl | rfl <;> rfl
  · unfold HSV2RGB
    simp only [if_neg hs0, Nat.cast_ofNat]
    rw [h360]
    rfl

/-- C9 (as amended) at saturation 255, value 255 and previous colour `(0, 0, 0)`. -/
theorem HSV2RGB_sector_witness :
    1 ≤ 255 ∧ HSV2RGB ⟨0, 0, 0⟩ 360 255 255 = ⟨0, 0, 0⟩ :=
  ⟨by decide, (HSV2RGB_sector ⟨0, 0, 0⟩ 255 255 (by decide)).2.2⟩

/-- For `s, l` in `[0, 1]` the chroma `v` lies between `l` and `min (2l) 1`. -/
theorem hsl_v_bounds (sl l : K) (hs0 : 0 ≤ sl) (hs1 : sl ≤ 1) (hl0 : 0 ≤ l) (hl1 : l ≤ 1) :
    l ≤ hsl_v sl l ∧ hsl_v sl l ≤ 1 ∧ hsl_v sl l ≤ l + l := by
  unfold hsl_v
  have hls : 0 ≤ l * sl := mul_nonneg hl0 hs0
  have hls1 : l * sl ≤ l := by nlinarith
  split_ifs with h
  · have h2 : l ≤ 1 / 2 := by
      have : (0.5 : K) = 1 / 2 := by norm_num
      rw [this] at h; exact h
    refine ⟨?_, ?_, ?_⟩
    · norm_num; nlinarith
    · norm_num; nlinarith
    · norm_num; nlinarith
  · have h2 : 1 / 2 < l := by
      have : (0.5 : K) = 1 / 2 := by norm_num
      rw [this] at h; exact not_le.mp h
    have hsl : sl * (1 - l) ≤ 1 - l := by nlinarith
    have hsl0 : 0 ≤ sl * (1 - l) := mul_nonneg hs0 (by linarith)
    refine ⟨?_, ?_, ?_⟩ <;> nlinarith

/-- For `h >= 0` the fractional part `fract = h*6 - sextant` lies in `[0, 1)`. -/
theorem hsl_fract_bounds (h sl l : K) (hh0 : 0 ≤ h) :
    0 ≤ (HSL2RGB_locals h sl l).fract ∧ (HSL2RGB_locals h sl l).fract < 1 := by
  have h6 : (0 : K) ≤ h * 6.0 := by norm_num; linarith
  have hf : (HSL2RGB_locals h sl l).fract = Int.fract (h * 6.0) := by
    show h * 6.0 - ((toInt (h * 6.0) : ℤ) : K) = Int.fract (h * 6.0)
    rw [toInt_of_nonneg _ h6, Int.self_sub_floor]
  rw [hf]
  exact ⟨Int.fract_nonneg _, Int.fract_lt_one _⟩

/-- The second form of C10: `0 <= m <= mid1, mid2 <= v <= 1` whenever `v > 0`. -/
theorem hsl_locals_bounds (h sl l : K) (hh0 : 0 ≤ h) (hs0 : 0 ≤ sl) (hs1 : sl ≤ 1)
    (hl0 : 0 ≤ l) (hl1 : l ≤ 1) (hv : 0 < hsl_v sl l) :
    0 ≤ (HSL2RGB_locals h sl l).m ∧
    (HSL2RGB_locals h sl l).m ≤ (HSL2RGB_locals h sl l).mid1 ∧
    (HSL2RGB_locals h sl l).mid1 ≤ (HSL2RGB_locals h sl l).v ∧
    (HSL2RGB_locals h sl l).m ≤ (HSL2RGB_locals h sl l).mid2 ∧
    (HSL2RGB_locals h sl l).mid2 ≤ (HSL2RGB_locals h sl l).v ∧
    (HSL2RGB_locals h sl l).v ≤ 1 := by
  obtain ⟨v1, v2, v3⟩ := hsl_v_bounds sl l hs0 hs1 hl0 hl1
  obtain ⟨f0, f1⟩ := hsl_fract_bounds h sl l hh0
  have hvv : (HSL2RGB_locals h sl l).v = hsl_v sl l := rfl
  have hm : (HSL2RGB_locals h sl l).m = l + l - hsl_v sl l := rfl
  have hvsf : (HSL2RGB_locals h sl l).vsf =
      (hsl_v sl l - (l + l - hsl_v sl l)) * (HSL2RGB_locals h sl l).fract := by
    show hsl_v sl l * ((hsl_v sl l - (l + l - hsl_v sl l)) / hsl_v sl l) *
      (HSL2RGB_locals h sl l).fract = _
    rw [mul_div_cancel₀ _ hv.ne.symm]
  have hmid1 : (HSL2RGB_locals h sl l).mid1 =
      (l + l - hsl_v sl l) + (HSL2RGB_locals h sl l).vsf := rfl
  have hmid2 : (HSL2RGB_locals h sl l).mid2 =
      hsl_v sl l - (HSL2RGB_locals h sl l).vsf := rfl
  have hd : 0 ≤ hsl_v sl l - (l + l - hsl_v sl l) := by linarith
  have hvsf0 : 0 ≤ (HSL2RGB_locals h sl l).vsf := by
    rw [hvsf]; exact mul_nonneg hd f0
  have hvsf1 : (HSL2RGB_locals h sl l).vsf ≤ hsl_v sl l - (l + l - hsl_v sl l) := by
    rw [hvsf]; nlinarith
  rw [hmid1, hmid2, hvv, hm]
  refine ⟨?_, ?_, ?_, ?_, ?_, ?_⟩ <;> linarith

/-- Each of the three channels lies in `[0, 1]`. -/
theorem HSL2RGB_channels_unit (h sl l : K) (hh0 : 0 ≤ h) (hs0 : 0 ≤ sl) (hs1 : sl ≤ 1)
    (hl0 : 0 ≤ l) (hl1 : l ≤ 1) :
    (0 ≤ (HSL2RGB_channels h sl l).1 ∧ (HSL2RGB_channels h sl l).1 ≤ 1) ∧
    (0 ≤ (HSL2RGB_channels h sl l).2.1 ∧ (HSL2RGB_channels h sl l).2.1 ≤ 1) ∧
    (0 ≤ (HSL2RGB_channels h sl l).2.2 ∧ (HSL2RGB_channels h sl l).2.2 ≤ 1) := by
  unfold HSL2RGB_channels
  by_cases hv : hsl_v sl l > 0
  · obtain ⟨b1, b2, b3, b4, b5, b6⟩ := hsl_locals_bounds h sl l hh0 hs0 hs1 hl0 hl1 hv
    simp only [hv, if_true]
    split <;> refine ⟨⟨?_, ?_⟩, ⟨?_, ?_⟩, ⟨?_, ?_⟩⟩ <;> linarith
  · simp only [hv, if_false]
    exact ⟨⟨hl0, hl1⟩, ⟨hl0, hl1⟩, ⟨hl0, hl1⟩⟩

/-- A `double` in `[0, 255]` converts to `unsigned char` without wrapping. -/
theorem toUChar_of_range (d : K) (h0 : 0 ≤ d) (h1 : d ≤ 255) :
    toUChar d = toInt d ∧ 0 ≤ toInt d ∧ toInt d ≤ 255 := by
  have hf0 : 0 ≤ toInt d := by
    rw [toInt_of_nonneg _ h0]; exact Int.floor_nonneg.mpr h0
  have hf1 : toInt d ≤ 255 := by
    rw [toInt_of_nonneg _ h0]
    have : ⌊d⌋ ≤ ⌊(255 : K)⌋ := Int.floor_le_floor h1
    have h255 : ⌊(255 : K)⌋ = 255 := by
      have : (255 : K) = ((255 : ℤ) : K) := by norm_num
      rw [this, Int.floor_intCast]
    omega
  refine ⟨?_, hf0, hf1⟩
  unfold toUChar
  omega

/-- C10: for `h`, `s`, `l` in `[0, 1]` the three real-valued channels `r*255`, `g*255`,
`b*255` that `HSL2RGB` converts to bytes lie in `[0, 255]`, so the conversion to
`unsigned char` does not wrap; and whenever `v > 0`,
`0 <= m <= mid1, mid2 <= v <= 1`. -/
theorem HSL2RGB_range (h sl l : K) (hh0 : 0 ≤ h) (hh1 : h ≤ 1) (hs0 : 0 ≤ sl)
    (hs1 : sl ≤ 1) (hl0 : 0 ≤ l) (hl1 : l ≤ 1) :
    (0 ≤ (HSL2RGB_channels h sl l).1 * 255.0 ∧ (HSL2RGB_channels h sl l).1 * 255.0 ≤ 255) ∧
    (0 ≤ (HSL2RGB_channels h sl l).2.1 * 255.0 ∧
      (HSL2RGB_channels h sl l).2.1 * 255.0 ≤ 255) ∧
    (0 ≤ (HSL2RGB_channels h sl l).2.2 * 255.0 ∧
      (HSL2RGB_channels h sl l).2.2 * 255.0 ≤ 255) ∧
    HSL2RGB h sl l = ⟨toInt ((HSL2RGB_channels h sl l).1 * 255.0),
      toInt ((HSL2RGB_channels h sl l).2.1 * 255.0),
      toInt ((HSL2RGB_channels h sl l).2.2 * 255.0)⟩ ∧
    (0 < hsl_v sl l →
      0 ≤ (HSL2RGB_locals h sl l).m ∧
      (HSL2RGB_locals h sl l).m ≤ (HSL2RGB_locals h sl l).mid1 ∧
      (HSL2RGB_locals h sl l).mid1 ≤ (HSL2RGB_locals h sl l).v ∧
      (HSL2RGB_locals h sl l).m ≤ (HSL2RGB_locals h sl l).mid2 ∧
      (HSL2RGB_locals h sl l).mid2 ≤ (HSL2RGB_locals h sl l).v ∧
      (HSL2RGB_locals h sl l).v ≤ 1) := by
  obtain ⟨⟨r0, r1⟩, ⟨g0, g1⟩, ⟨b0, b1⟩⟩ := HSL2RGB_channels_unit h sl l hh0 hs0 hs1 hl0 hl1
  have e : (255.0 : K) = 255 := by norm_num
  have R : 0 ≤ (HSL2RGB_channels h sl l).1 * 255.0 ∧
      (HSL2RGB_channels h sl l).1 * 255.0 ≤ 255 := by
    rw [e]; constructor <;> nlinarith
  have G : 0 ≤ (HSL2RGB_channels h sl l).2.1 * 255.0 ∧
      (HSL2RGB_channels h sl l).2.1 * 255.0 ≤ 255 := by
    rw [e]; constructor <;> nlinarith
  have B : 0 ≤ (HSL2RGB_channels h sl l).2.2 * 255.0 ∧
      (HSL2RGB_channels h sl l).2.2 * 255.0 ≤ 255 := by
    rw [e]; constructor <;> nlinarith
  refine ⟨R, G, B, ?_, fun hv => hsl_locals_bounds h sl l hh0 hs0 hs1 hl0 hl1 hv⟩
  unfold HSL2RGB
  simp only [(toUChar_of_range _ R.1 R.2).1, (toUChar_of_range _ G.1 G.2).1,
    (toUChar_of_range _ B.1 B.2).1]

/-- C10 at `h = 1/3`, `s = 6/10`, `l = 7/10`, where the channels are
`(13/25, 22/25, 13/25)` and the colour written is `(132, 224, 132)`. -/
theorem HSL2RGB_range_witness :
    ((0 : ℚ) ≤ 1 / 3 ∧ (1 / 3 : ℚ) ≤ 1 ∧ (0 : ℚ) ≤ 6 / 10 ∧ (6 / 10 : ℚ) ≤ 1 ∧
      (0 : ℚ) ≤ 7 / 10 ∧ (7 / 10 : ℚ) ≤ 1) ∧
    (0 ≤ (HSL2RGB_channels (1 / 3 : ℚ) (6 / 10) (7 / 10)).1 * 255.0 ∧
      (HSL2RGB_channels (1 / 3 : ℚ) (6 / 10) (7 / 10)).1 * 255.0 ≤ 255) :=
  ⟨by norm_num,
    (HSL2RGB_range (1 / 3 : ℚ) (6 / 10) (7 / 10) (by norm_num) (by norm_num) (by norm_num)
      (by norm_num) (by norm_num) (by norm_num)).1⟩

/-! ### The renderer -/

/-- With a non-zero `max_abs` the lightness is the shaped ratio. -/
theorem render_lightness_of_ne (cabs : Cplx K → K) (cbrt : K → K) (max_abs : K)
    (c : Cplx K) (hM : max_abs ≠ 0) :
    render_lightness cabs cbrt max_abs c =
      some (scale_function cbrt (cabs c / max_abs)) := by
  unfold render_lightness fdiv
  rw [if_neg hM]

/-- With `carg` in `(-pi, pi]` and `pi > 0`, the hue of line 125 lies in `(0, 1]`, and
it equals 1 exactly when `carg(c) = pi`. -/
theorem render_hue_range (carg : Cplx K → K) (pi : K) (c : Cplx K) (hpi : 0 < pi)
    (h1 : -pi < carg c) (h2 : carg c ≤ pi) :
    0 < render_hue carg pi c ∧ render_hue carg pi c ≤ 1 ∧
    (render_hue carg pi c = 1 ↔ carg c = pi) := by
  unfold render_hue
  have e : (2.0 : K) = 2 := by norm_num
  rw [e]
  have h2pi : (0 : K) < 2 * pi := by linarith
  refine ⟨div_pos (by linarith) h2pi, ?_, ?_⟩
  · rw [div_le_one h2pi]; linarith
  · rw [div_eq_one_iff_eq h2pi.ne.symm]
    constructor <;> intro h <;> linarith

/-- Hue 1 falls through the `switch` of `HSL2RGB`: the sextant is 6 and the channels
keep their gray default. -/
theorem HSL2RGB_hue_one (sl l : K) :
    (HSL2RGB_locals (1 : K) sl l).sextant = 6 ∧ HSL2RGB_channels (1 : K) sl l = (l, l, l) := by
  have h6 : toInt ((1 : K) * 6.0) = 6 := by
    have : (1 : K) * 6.0 = ((6 : ℕ) : K) := by norm_num
    rw [this, toInt_natCast]; rfl
  have hs : (HSL2RGB_locals (1 : K) sl l).sextant = 6 := h6
  refine ⟨hs, ?_⟩
  unfold HSL2RGB_channels
  by_cases hv : hsl_v sl l > 0
  · simp only [hv, if_true, hs]
  · simp only [hv, if_false]

/-- C8 (evaluation at the failing input): for the accumulated cell value `-1 + 0i` the
argument is `pi`, so line 125 gives the hue `h = 1`; inside `HSL2RGB` the sextant is then
6, none of the six cases of the `switch` is taken, and the channels stay at the gray
default `r = g = b = l`. -/
theorem render_hue_negative_real :
    render_hue (fun z : Cplx ℝ => Complex.arg ⟨z.re, z.im⟩) Real.pi ⟨-1, 0⟩ = 1 ∧
    (∀ sl l : ℝ, (HSL2RGB_locals (render_hue (fun z : Cplx ℝ => Complex.arg ⟨z.re, z.im⟩)
        Real.pi ⟨-1, 0⟩) sl l).sextant = 6) ∧
    (∀ sl l : ℝ, HSL2RGB_channels (render_hue (fun z : Cplx ℝ => Complex.arg ⟨z.re, z.im⟩)
        Real.pi ⟨-1, 0⟩) sl l = (l, l, l)) := by
  have harg : Complex.arg ⟨-1, 0⟩ = Real.pi := by
    have : (⟨-1, 0⟩ : ℂ) = -1 := by
      apply Complex.ext <;> simp
    rw [this, Complex.arg_neg_one]
  have hh : render_hue (fun z : Cplx ℝ => Complex.arg ⟨z.re, z.im⟩) Real.pi ⟨-1, 0⟩ = 1 := by
    show (Complex.arg ⟨-1, 0⟩ + Real.pi) / (2.0 * Real.pi) = 1
    rw [harg, div_eq_one_iff_eq (by positivity)]
    norm_num
    ring
  refine ⟨hh, ?_, ?_⟩
  · intro sl l; rw [hh]; exact (HSL2RGB_hue_one sl l).1
  · intro sl l; rw [hh]; exact (HSL2RGB_hue_one sl l).2

/-! ### Shortcut witnesses -/

theorem Cplx.mul_re (a b : Cplx K) : (a * b).re = a.re * b.re - a.im * b.im := rfl

theorem Cplx.mul_im (a b : Cplx K) : (a * b).im = a.re * b.im + a.im * b.re := rfl

theorem in_set_eq_cap (c : Cplx K) : in_set c = in_set_cap MAX_ITERATIONS c := rfl

/-- C13: `0 + 0i` satisfies the cardioid inequality and `-1 + 0i` the bulb inequality,
so `in_set` returns 1 for both before its loop runs, whatever the iteration cap (0
included); `2 + 2i` fails both inequalities, passes the bailout test on `z_0`
(`|2 + 2i| <= 3`) and is discarded by the test on `z_1 = 2 + 10i`, at loop index 1. -/
theorem in_set_shortcut_examples :
    in_cardioid (0 : ℚ) 0 = true ∧ in_bulb (-1 : ℚ) 0 = true ∧
    in_set (⟨0, 0⟩ : Cplx ℚ) = 1 ∧ in_set (⟨-1, 0⟩ : Cplx ℚ) = 1 ∧
    (∀ cap : ℕ, in_set_cap cap (⟨0, 0⟩ : Cplx ℚ) = 1 ∧
      in_set_cap cap (⟨-1, 0⟩ : Cplx ℚ) = 1) ∧
    in_cardioid (2 : ℚ) 2 = false ∧ in_bulb (2 : ℚ) 2 = false ∧
    cabs_gt (orbit (⟨2, 2⟩ : Cplx ℚ) 0) BAILOUT = false ∧
    orbit (⟨2, 2⟩ : Cplx ℚ) 1 = ⟨2, 10⟩ ∧
    cabs_gt (orbit (⟨2, 2⟩ : Cplx ℚ) 1) BAILOUT = true ∧
    in_set_loop (⟨2, 2⟩ : Cplx ℚ) 1 ⟨2, 2⟩ = 1 ∧
    in_set_loop (⟨2, 2⟩ : Cplx ℚ) 2 ⟨2, 2⟩ = 0 ∧
    in_set (⟨2, 2⟩ : Cplx ℚ) = 0 := by
  have hc0 : in_cardioid (0 : ℚ) 0 = true := by norm_num [in_cardioid, sqr]
  have hb1 : in_bulb (-1 : ℚ) 0 = true := by norm_num [in_bulb, sqr]
  have hc2 : in_cardioid (2 : ℚ) 2 = false := by norm_num [in_cardioid, sqr]
  have hb2 : in_bulb (2 : ℚ) 2 = false := by norm_num [in_bulb, sqr]
  have hz1 : orbit (⟨2, 2⟩ : Cplx ℚ) 1 = ⟨2, 10⟩ := by
    ext
    · show (2 : ℚ) * 2 - 2 * 2 + 2 = 2
      norm_num
    · show (2 : ℚ) * 2 + 2 * 2 + 2 = 10
      norm_num
  have hg0 : cabs_gt (orbit (⟨2, 2⟩ : Cplx ℚ) 0) BAILOUT = false := by
    norm_num [cabs_gt, orbit, BAILOUT]
  have hg1 : cabs_gt (orbit (⟨2, 2⟩ : Cplx ℚ) 1) BAILOUT = true := by
    rw [hz1]; norm_num [cabs_gt, BAILOUT]
  have hstep : (⟨2, 2⟩ : Cplx ℚ) * ⟨2, 2⟩ + ⟨2, 2⟩ = orbit (⟨2, 2⟩ : Cplx ℚ) 1 := rfl
  have h00 : orbit (⟨2, 2⟩ : Cplx ℚ) 0 = ⟨2, 2⟩ := rfl
  rw [h00] at hg0
  refine ⟨hc0, hb1, ?_, ?_, ?_, hc2, hb2, ?_, hz1, hg1, ?_, ?_, ?_⟩
  · simp only [in_set, hc0, Bool.true_or, if_true]
  · simp only [in_set, hb1, Bool.or_true, if_true]
  · intro cap
    constructor
    · simp only [in_set_cap, hc0, Bool.true_or, if_true]
    · simp only [in_set_cap, hb1, Bool.or_true, if_true]
  · rw [h00]; exact hg0
  · simp only [in_set_loop, hg0, Bool.false_eq_true, if_false]
  · simp only [in_set_loop, hg0, Bool.false_eq_true, if_false, hstep, hg1, if_true]
  · refine (in_set_spec (⟨2, 2⟩ : Cplx ℚ)).1.mpr ⟨hc2, hb2, 1, ?_, hg1⟩
    norm_num [MAX_ITERATIONS]

/-! ### Gray axis -/

theorem hsl_v_sat_zero (l : K) : hsl_v 0 l = l := by
  unfold hsl_v
  split_ifs <;> norm_num

/-- With saturation 0 every channel of `HSL2RGB` is the lightness. -/
theorem HSL2RGB_channels_sat_zero (h l : K) : HSL2RGB_channels h 0 l = (l, l, l) := by
  unfold HSL2RGB_channels
  by_cases hv : hsl_v 0 l > 0
  · have tv : (HSL2RGB_locals h 0 l).v = l := hsl_v_sat_zero l
    have tm : (HSL2RGB_locals h 0 l).m = l := by
      show l + l - hsl_v 0 l = l
      rw [hsl_v_sat_zero]; ring
    have tvsf : (HSL2RGB_locals h 0 l).vsf = 0 := by
      show hsl_v 0 l * ((hsl_v 0 l - (l + l - hsl_v 0 l)) / hsl_v 0 l) *
        (HSL2RGB_locals h 0 l).fract = 0
      rw [hsl_v_sat_zero]
      have : l - (l + l - l) = 0 := by ring
      rw [this, zero_div, mul_zero, zero_mul]
    have t1 : (HSL2RGB_locals h 0 l).mid1 = l := by
      show (HSL2RGB_locals h 0 l).m + (HSL2RGB_locals h 0 l).vsf = l
      rw [tm, tvsf, add_zero]
    have t2 : (HSL2RGB_locals h 0 l).mid2 = l := by
      show (HSL2RGB_locals h 0 l).v - (HSL2RGB_locals h 0 l).vsf = l
      rw [tv, tvsf, sub_zero]
    simp only [hv, if_true]
    split <;> simp only [tv, tm, t1, t2]
  · simp only [hv, if_false]

/-- The byte conversion always yields a byte. -/
theorem toUChar_byte (d : K) : 0 ≤ toUChar d ∧ toUChar d ≤ 255 := by
  unfold toUChar
  constructor
  · exact Int.emod_nonneg _ (by norm_num)
  · have := Int.emod_lt_of_pos (toInt d) (by norm_num : (0 : ℤ) < 256)
    omega

/-- C11: gray axis.  `HSV2RGB` with `sat = 0` gives `r = g = b = val` for every hue and
value.  For `h` in `[0, 1)` and `l` in `[0, 1]`, with saturation 0 every channel of
`HSL2RGB` is `l`, so `r = g = b =` the byte truncation of the product `l * 255.0` as the
code forms it, rounded to a double by `rnd` (any non-decreasing rounding that leaves 0
and 255 unchanged; `rnd = id` gives the exact product); the truncation does not wrap,
and `l = 0` gives `(0, 0, 0)`. -/
theorem gray_axis (color : COLOR) (i_hue val : ℕ) (rnd : K → K) (h l : K)
    (hh0 : 0 ≤ h) (hh1 : h < 1) (hl0 : 0 ≤ l) (hl1 : l ≤ 1)
    (hmono : ∀ a b : K, a ≤ b → rnd a ≤ rnd b) (hr0 : rnd 0 = 0)
    (hr255 : rnd 255 = 255) :
    HSV2RGB color i_hue 0 val = ⟨val, val, val⟩ ∧
    HSL2RGB_channels h 0 l = (l, l, l) ∧
    HSL2RGB_rounded rnd h 0 l =
      ⟨toUChar (rnd (l * 255.0)), toUChar (rnd (l * 255.0)), toUChar (rnd (l * 255.0))⟩ ∧
    toUChar (rnd (l * 255.0)) = ⌊rnd (l * 255.0)⌋ ∧
    (0 ≤ ⌊rnd (l * 255.0)⌋ ∧ ⌊rnd (l * 255.0)⌋ ≤ 255) ∧
    HSL2RGB_rounded rnd h 0 (0 : K) = ⟨0, 0, 0⟩ := by
  have e : (255.0 : K) = 255 := by norm_num
  have hgen : ∀ t : K, 0 ≤ t → t ≤ 1 →
      toUChar (rnd (t * 255.0)) = ⌊rnd (t * 255.0)⌋ ∧
        (0 ≤ ⌊rnd (t * 255.0)⌋ ∧ ⌊rnd (t * 255.0)⌋ ≤ 255) := by
    intro t ht0 ht1
    have r0 : 0 ≤ t * 255.0 := by rw [e]; nlinarith
    have r1 : t * 255.0 ≤ 255 := by rw [e]; nlinarith
    have q0 : 0 ≤ rnd (t * 255.0) := by
      have := hmono _ _ r0
      rwa [hr0] at this
    have q1 : rnd (t * 255.0) ≤ 255 := by
      have := hmono _ _ r1
      rwa [hr255] at this
    obtain ⟨u1, u2, u3⟩ := toUChar_of_range (rnd (t * 255.0)) q0 q1
    have hfl : toInt (rnd (t * 255.0)) = ⌊rnd (t * 255.0)⌋ := toInt_of_nonneg _ q0
    rw [hfl] at u1 u2 u3
    exact ⟨u1, u2, u3⟩
  have hround : ∀ t : K, HSL2RGB_rounded rnd h 0 t =
      ⟨toUChar (rnd (t * 255.0)), toUChar (rnd (t * 255.0)), toUChar (rnd (t * 255.0))⟩ := by
    intro t
    unfold HSL2RGB_rounded
    rw [HSL2RGB_channels_sat_zero]
  refine ⟨?_, HSL2RGB_channels_sat_zero h l, hround l, (hgen l hl0 hl1).1,
    (hgen l hl0 hl1).2, ?_⟩
  · unfold HSV2RGB
    simp only [if_true]
  · rw [hround 0]
    have hz : toUChar (rnd ((0 : K) * 255.0)) = 0 := by
      have h00 : (0 : K) * 255.0 = 0 := by norm_num
      rw [h00, hr0]
      have : (0 : K) = ((0 : ℕ) : K) := by norm_num
      unfold toUChar
      rw [this, toInt_natCast]
      exact Eq.refl _
    simp only [hz]

theorem round_binade7_mono (a b : ℚ) (hab : a ≤ b) :
    round_binade7 a ≤ round_binade7 b := by
  unfold round_binade7
  apply div_le_div_of_nonneg_right _ (by positivity)
  have : ⌊a * 2 ^ 45 + 1 / 2⌋ ≤ ⌊b * 2 ^ 45 + 1 / 2⌋ := by
    apply Int.floor_le_floor
    nlinarith
  exact_mod_cast this

theorem round_binade7_zero : round_binade7 0 = 0 := by
  unfold round_binade7
  have : ⌊(0 : ℚ) * 2 ^ 45 + 1 / 2⌋ = 0 := by
    rw [Int.floor_eq_iff]; norm_num
  rw [this]; norm_num

theorem round_binade7_255 : round_binade7 255 = 255 := by
  unfold round_binade7
  have : ⌊(255 : ℚ) * 2 ^ 45 + 1 / 2⌋ = 255 * 2 ^ 45 := by
    rw [Int.floor_eq_iff]; norm_num
  rw [this]; norm_num

/-- For the double nearest to 0.6, `5404319552844595 / 2^53`, the exact product with
255 lies just below 153 and rounds to 153, while its floor is 152. -/
theorem round_binade7_example :
    round_binade7 ((5404319552844595 / 9007199254740992 : ℚ) * 255.0) = 153 ∧
    ⌊(5404319552844595 / 9007199254740992 : ℚ) * 255.0⌋ = 152 := by
  constructor
  · unfold round_binade7
    have : ⌊(5404319552844595 / 9007199254740992 : ℚ) * 255.0 * 2 ^ 45 + 1 / 2⌋
        = 153 * 2 ^ 45 := by
      rw [Int.floor_eq_iff]; norm_num
    rw [this]; norm_num
  · rw [Int.floor_eq_iff]; norm_num

/-- C11 at hue 200, value 77, and at `h = 1/3` with `l` the double nearest to 0.6 and
the product rounded as in the binade `[128, 256)`: the colour written is
`(153, 153, 153)`. -/
theorem gray_axis_witness :
    ((0 : ℚ) ≤ 1 / 3 ∧ (1 / 3 : ℚ) < 1 ∧
      (0 : ℚ) ≤ 5404319552844595 / 9007199254740992 ∧
      (5404319552844595 / 9007199254740992 : ℚ) ≤ 1) ∧
    HSV2RGB ⟨1, 2, 3⟩ 200 0 77 = ⟨77, 77, 77⟩ ∧
    HSL2RGB_rounded round_binade7 (1 / 3 : ℚ) 0 (5404319552844595 / 9007199254740992) =
      ⟨153, 153, 153⟩ := by
  have w := gray_axis (⟨1, 2, 3⟩ : COLOR) 200 77 round_binade7 (1 / 3 : ℚ)
    (5404319552844595 / 9007199254740992) (by norm_num) (by norm_num) (by norm_num)
    (by norm_num) round_binade7_mono round_binade7_zero round_binade7_255
  refine ⟨by norm_num, w.1, ?_⟩
  rw [w.2.2.1, w.2.2.2.1, round_binade7_example.1]
  have : ⌊(153 : ℚ)⌋ = 153 := by
    have h : (153 : ℚ) = ((153 : ℤ) : ℚ) := by norm_num
    rw [h, Int.floor_intCast]
  rw [this]

/-- With exact products `HSL2RGB_rounded` is `HSL2RGB`. -/
theorem HSL2RGB_rounded_id (h sl l : K) :
    HSL2RGB_rounded (fun x : K => x) h sl l = HSL2RGB h sl l := Eq.refl _

/-! ### Sector continuity -/

/-- When `v > 0`, `HSL2RGB` assigns what the `switch` gives for `sextant = (int)(6h)`
and `fract = 6h - sextant`. -/
theorem HSL2RGB_channels_eq_sector (h sl l : K) (hv : 0 < hsl_v sl l) :
    HSL2RGB_channels h sl l =
      HSL2RGB_sector (toInt (h * 6.0)) (h * 6.0 - (toInt (h * 6.0) : K)) sl l := by
  unfold HSL2RGB_channels
  simp only [gt_iff_lt, hv, if_true]
  rfl

/-- The six assignments at `fract = 0`. -/
theorem HSL2RGB_sector_fract_zero (sl l : K) :
    HSL2RGB_sector 0 0 sl l = (hsl_v sl l, l + l - hsl_v sl l, l + l - hsl_v sl l) ∧
    HSL2RGB_sector 1 0 sl l = (hsl_v sl l, hsl_v sl l, l + l - hsl_v sl l) ∧
    HSL2RGB_sector 2 0 sl l = (l + l - hsl_v sl l, hsl_v sl l, l + l - hsl_v sl l) ∧
    HSL2RGB_sector 3 0 sl l = (l + l - hsl_v sl l, hsl_v sl l, hsl_v sl l) ∧
    HSL2RGB_sector 4 0 sl l = (l + l - hsl_v sl l, l + l - hsl_v sl l, hsl_v sl l) ∧
    HSL2RGB_sector 5 0 sl l = (hsl_v sl l, l + l - hsl_v sl l, hsl_v sl l) := by
  refine ⟨?_, ?_, ?_, ?_, ?_, ?_⟩ <;>
    simp only [HSL2RGB_sector, mul_zero, add_zero, sub_zero]

/-- The six assignments at `fract = 1`, for `v > 0`. -/
theorem HSL2RGB_sector_fract_one (sl l : K) (hv : 0 < hsl_v sl l) :
    HSL2RGB_sector 0 1 sl l = (hsl_v sl l, hsl_v sl l, l + l - hsl_v sl l) ∧
    HSL2RGB_sector 1 1 sl l = (l + l - hsl_v sl l, hsl_v sl l, l + l - hsl_v sl l) ∧
    HSL2RGB_sector 2 1 sl l = (l + l - hsl_v sl l, hsl_v sl l, hsl_v sl l) ∧
    HSL2RGB_sector 3 1 sl l = (l + l - hsl_v sl l, l + l - hsl_v sl l, hsl_v sl l) ∧
    HSL2RGB_sector 4 1 sl l = (hsl_v sl l, l + l - hsl_v sl l, hsl_v sl l) ∧
    HSL2RGB_sector 5 1 sl l = (hsl_v sl l, l + l - hsl_v sl l, l + l - hsl_v sl l) := by
  have hvsf : hsl_v sl l * ((hsl_v sl l - (l + l - hsl_v sl l)) / hsl_v sl l) * 1 =
      hsl_v sl l - (l + l - hsl_v sl l) := by
    rw [mul_one, mul_div_cancel₀ _ hv.ne.symm]
  have h1 : l + l - hsl_v sl l + (hsl_v sl l - (l + l - hsl_v sl l)) = hsl_v sl l := by ring
  have h2 : hsl_v sl l - (hsl_v sl l - (l + l - hsl_v sl l)) = l + l - hsl_v sl l := by ring
  refine ⟨?_, ?_, ?_, ?_, ?_, ?_⟩ <;>
    simp only [HSL2RGB_sector, hvsf, h1, h2]

/-- C12: sector continuity of `HSL2RGB` before byte truncation.  For `s`, `l` in
`[0, 1]` with `v > 0` and `k` in `1 .. 5`, the channels computed at `h = k/6` (sector
`k`, `fract = 0`) equal what sector `k - 1` assigns at `fract = 1`; the channels at
`h = 0` equal what sector 5 assigns at `fract = 1`; and for every `h` the channels are
the assignment of sector `(int)(6h)` at `fract = 6h - (int)(6h)`. -/
theorem HSL2RGB_sector_continuity (sl l : K) (hs0 : 0 ≤ sl) (hs1 : sl ≤ 1) (hl0 : 0 ≤ l)
    (hl1 : l ≤ 1) (hv : 0 < hsl_v sl l) :
    (∀ k : ℕ, 1 ≤ k → k ≤ 5 →
      HSL2RGB_channels ((k : K) / 6) sl l = HSL2RGB_sector (k : ℤ) 0 sl l ∧
      HSL2RGB_sector (k : ℤ) 0 sl l = HSL2RGB_sector ((k : ℤ) - 1) 1 sl l) ∧
    (HSL2RGB_channels 0 sl l = HSL2RGB_sector 0 0 sl l ∧
      HSL2RGB_sector 0 0 sl l = HSL2RGB_sector 5 1 sl l) ∧
    (∀ h : K, HSL2RGB_channels h sl l =
      HSL2RGB_sector (toInt (h * 6.0)) (h * 6.0 - (toInt (h * 6.0) : K)) sl l) := by
  obtain ⟨z0, z1, z2, z3, z4, z5⟩ := HSL2RGB_sector_fract_zero sl l
  obtain ⟨o0, o1, o2, o3, o4, o5⟩ := HSL2RGB_sector_fract_one sl l hv
  have at_nat : ∀ k : ℕ,
      HSL2RGB_channels ((k : K) / 6) sl l = HSL2RGB_sector (k : ℤ) 0 sl l := by
    intro k
    have h6 : (k : K) / 6 * 6.0 = (k : K) := by norm_num
    rw [HSL2RGB_channels_eq_sector _ sl l hv, h6, toInt_natCast]
    have : (k : K) - (((k : ℕ) : ℤ) : K) = 0 := by push_cast; ring
    rw [this]
  refine ⟨?_, ?_, fun h => HSL2RGB_channels_eq_sector h sl l hv⟩
  · intro k hk1 hk5
    refine ⟨at_nat k, ?_⟩
    interval_cases k
    · show HSL2RGB_sector 1 0 sl l = HSL2RGB_sector 0 1 sl l
      rw [z1, o0]
    · show HSL2RGB_sector 2 0 sl l = HSL2RGB_sector 1 1 sl l
      rw [z2, o1]
    · show HSL2RGB_sector 3 0 sl l = HSL2RGB_sector 2 1 sl l
      rw [z3, o2]
    · show HSL2RGB_sector 4 0 sl l = HSL2RGB_sector 3 1 sl l
      rw [z4, o3]
    · show HSL2RGB_sector 5 0 sl l = HSL2RGB_sector 4 1 sl l
      rw [z5, o4]
  · constructor
    · have := at_nat 0
      simpa using this
    · rw [z0, o5]

/-- C12 at `s = 6/10`, `l = 1/2`, where `v = 4/5`. -/
theorem HSL2RGB_sector_continuity_witness :
    ((0 : ℚ) ≤ 6 / 10 ∧ (6 / 10 : ℚ) ≤ 1 ∧ (0 : ℚ) ≤ 1 / 2 ∧ (1 / 2 : ℚ) ≤ 1 ∧
      (0 : ℚ) < hsl_v (6 / 10) (1 / 2)) ∧
    HSL2RGB_sector 0 0 (6 / 10 : ℚ) (1 / 2) = HSL2RGB_sector 5 1 (6 / 10 : ℚ) (1 / 2) := by
  have hv : (0 : ℚ) < hsl_v (6 / 10) (1 / 2) := by norm_num [hsl_v]
  exact ⟨⟨by norm_num, by norm_num, by norm_num, by norm_num, hv⟩,
    (HSL2RGB_sector_continuity (6 / 10 : ℚ) (1 / 2) (by norm_num) (by norm_num)
      (by norm_num) (by norm_num) hv).2.1.2⟩

/-! ### Lightness and value are preserved -/

/-- Three numbers between `m` and `v`, one of them `v` and one of them `m`, have
maximum `v` and minimum `m`. -/
theorem max_min_of_three {α : Type} [LinearOrder α] (a b c v m : α)
    (ha : m ≤ a ∧ a ≤ v) (hb : m ≤ b ∧ b ≤ v) (hc : m ≤ c ∧ c ≤ v)
    (hv : a = v ∨ b = v ∨ c = v) (hm : a = m ∨ b = m ∨ c = m) :
    max a (max b c) = v ∧ min a (min b c) = m := by
  constructor
  · apply le_antisymm
    · exact max_le ha.2 (max_le hb.2 hc.2)
    · rcases hv with h | h | h
      · rw [← h]; exact le_max_left _ _
      · rw [← h]; exact le_trans (le_max_left _ _) (le_max_right _ _)
      · rw [← h]; exact le_trans (le_max_right _ _) (le_max_right _ _)
  · apply le_antisymm
    · rcases hm with h | h | h
      · rw [← h]; exact min_le_left _ _
      · rw [← h]; exact le_trans (min_le_right _ _) (min_le_left _ _)
      · rw [← h]; exact le_trans (min_le_right _ _) (min_le_right _ _)
    · exact le_min ha.1 (le_min hb.1 hc.1)

/-- For `h` in `[0, 1)` the sextant `(int)(6h)` is one of `0 .. 5`. -/
theorem hsl_sextant_range (h sl l : K) (hh0 : 0 ≤ h) (hh1 : h < 1) :
    0 ≤ (HSL2RGB_locals h sl l).sextant ∧ (HSL2RGB_locals h sl l).sextant ≤ 5 := by
  have h6 : (0 : K) ≤ h * 6.0 := by norm_num; linarith
  have h6lt : h * 6.0 < ((6 : ℤ) : K) := by norm_num; linarith
  have hs : (HSL2RGB_locals h sl l).sextant = ⌊h * 6.0⌋ := toInt_of_nonneg _ h6
  rw [hs]
  refine ⟨Int.floor_nonneg.mpr h6, ?_⟩
  have := Int.floor_lt.mpr h6lt
  omega

/-- C18: `HSL2RGB` preserves lightness.  For `h` in `[0, 1)`, `s` in `[0, 1]` and `l`
in `(0, 1]`, the largest of the real-valued channels is `v`, the smallest is
`m = 2l - v`, and half their sum is `l`. -/
theorem HSL2RGB_lightness (h sl l : K) (hh0 : 0 ≤ h) (hh1 : h < 1) (hs0 : 0 ≤ sl)
    (hs1 : sl ≤ 1) (hl0 : 0 < l) (hl1 : l ≤ 1) :
    max (HSL2RGB_channels h sl l).1
        (max (HSL2RGB_channels h sl l).2.1 (HSL2RGB_channels h sl l).2.2) = hsl_v sl l ∧
    min (HSL2RGB_channels h sl l).1
        (min (HSL2RGB_channels h sl l).2.1 (HSL2RGB_channels h sl l).2.2) =
      l + l - hsl_v sl l ∧
    (max (HSL2RGB_channels h sl l).1
        (max (HSL2RGB_channels h sl l).2.1 (HSL2RGB_channels h sl l).2.2) +
      min (HSL2RGB_channels h sl l).1
        (min (HSL2RGB_channels h sl l).2.1 (HSL2RGB_channels h sl l).2.2)) / 2 = l := by
  obtain ⟨v1, v2, v3⟩ := hsl_v_bounds sl l hs0 hs1 hl0.le hl1
  have hv : 0 < hsl_v sl l := lt_of_lt_of_le hl0 v1
  obtain ⟨b1, b2, b3, b4, b5, b6⟩ := hsl_locals_bounds h sl l hh0 hs0 hs1 hl0.le hl1 hv
  obtain ⟨s0, s5⟩ := hsl_sextant_range h sl l hh0 hh1
  have tv : (HSL2RGB_locals h sl l).v = hsl_v sl l := rfl
  have tm : (HSL2RGB_locals h sl l).m = l + l - hsl_v sl l := rfl
  have hmv : (HSL2RGB_locals h sl l).m ≤ (HSL2RGB_locals h sl l).v := le_trans b2 b3
  have key : max (HSL2RGB_channels h sl l).1
        (max (HSL2RGB_channels h sl l).2.1 (HSL2RGB_channels h sl l).2.2) =
        (HSL2RGB_locals h sl l).v ∧
      min (HSL2RGB_channels h sl l).1
        (min (HSL2RGB_channels h sl l).2.1 (HSL2RGB_channels h sl l).2.2) =
        (HSL2RGB_locals h sl l).m := by
    unfold HSL2RGB_channels
    simp only [gt_iff_lt, hv, if_true]
    generalize (HSL2RGB_locals h sl l).sextant = ii at s0 s5
    have hcases : ii = 0 ∨ ii = 1 ∨ ii = 2 ∨ ii = 3 ∨ ii = 4 ∨ ii = 5 := by omega
    rcases hcases with rfl | rfl | rfl | rfl | rfl | rfl
    · exact max_min_of_three _ _ _ _ _ ⟨hmv, le_refl _⟩ ⟨b2, b3⟩ ⟨le_refl _, hmv⟩
        (Or.inl rfl) (Or.inr (Or.inr rfl))
    · exact max_min_of_three _ _ _ _ _ ⟨b4, b5⟩ ⟨hmv, le_refl _⟩ ⟨le_refl _, hmv⟩
        (Or.inr (Or.inl rfl)) (Or.inr (Or.inr rfl))
    · exact max_min_of_three _ _ _ _ _ ⟨le_refl _, hmv⟩ ⟨hmv, le_refl _⟩ ⟨b2, b3⟩
        (Or.inr (Or.inl rfl)) (Or.inl rfl)
    · exact max_min_of_three _ _ _ _ _ ⟨le_refl _, hmv⟩ ⟨b4, b5⟩ ⟨hmv, le_refl _⟩
        (Or.inr (Or.inr rfl)) (Or.inl rfl)
    · exact max_min_of_three _ _ _ _ _ ⟨b2, b3⟩ ⟨le_refl _, hmv⟩ ⟨hmv, le_refl _⟩
        (Or.inr (Or.inr rfl)) (Or.inr (Or.inl rfl))
    · exact max_min_of_three _ _ _ _ _ ⟨hmv, le_refl _⟩ ⟨le_refl _, hmv⟩ ⟨b4, b5⟩
        (Or.inl rfl) (Or.inr (Or.inl rfl))
  rw [key.1, key.2, tv, tm]
  refine ⟨rfl, rfl, ?_⟩
  ring

/-- C18 at `h = 1/3`, `s = 6/10`, `l = 7/10`: the channels are `(13/25, 22/25, 13/25)`,
`v = 22/25` and `m = 13/25`. -/
theorem HSL2RGB_lightness_witness :
    ((0 : ℚ) ≤ 1 / 3 ∧ (1 / 3 : ℚ) < 1 ∧ (0 : ℚ) ≤ 6 / 10 ∧ (6 / 10 : ℚ) ≤ 1 ∧
      (0 : ℚ) < 7 / 10 ∧ (7 / 10 : ℚ) ≤ 1) ∧
    (max (HSL2RGB_channels (1 / 3 : ℚ) (6 / 10) (7 / 10)).1
        (max (HSL2RGB_channels (1 / 3 : ℚ) (6 / 10) (7 / 10)).2.1
          (HSL2RGB_channels (1 / 3 : ℚ) (6 / 10) (7 / 10)).2.2) +
      min (HSL2RGB_channels (1 / 3 : ℚ) (6 / 10) (7 / 10)).1
        (min (HSL2RGB_channels (1 / 3 : ℚ) (6 / 10) (7 / 10)).2.1
          (HSL2RGB_channels (1 / 3 : ℚ) (6 / 10) (7 / 10)).2.2)) / 2 = 7 / 10 :=
  ⟨by norm_num,
    (HSL2RGB_lightness (1 / 3 : ℚ) (6 / 10) (7 / 10) (by norm_num) (by norm_num)
      (by norm_num) (by norm_num) (by norm_num) (by norm_num)).2.2⟩

/-- The secondary channels of `HSV2RGB`: `c1` is `floor (val*(255 - sat)/255)`, and a
channel computed with a weight `t` in `[0, 1]` (`fr` for `c2`, `1 - fr` for `c3`) lies
between `c1` and `val`. -/
theorem HSV2RGB_secondary (sat val : ℕ) (hs2 : sat ≤ 255) (hv : val ≤ 255) (t : ℚ)
    (ht0 : 0 ≤ t) (ht1 : t ≤ 1) :
    (Int.tdiv ((val : ℤ) * (255 - (sat : ℤ))) 255) % 256 =
        ((val * (255 - sat) / 255 : ℕ) : ℤ) ∧
    ((val * (255 - sat) / 255 : ℕ) : ℤ) ≤ (val : ℤ) ∧
    ((val * (255 - sat) / 255 : ℕ) : ℤ) ≤
        toUChar (((val : ℚ) * (255 - (sat : ℚ) * t)) / 255) ∧
    toUChar (((val : ℚ) * (255 - (sat : ℚ) * t)) / 255) ≤ (val : ℤ) := by
  have hP : (val : ℤ) * (255 - (sat : ℤ)) = ((val * (255 - sat) : ℕ) : ℤ) := by
    push_cast [Nat.cast_sub hs2]; ring
  have hdiv : val * (255 - sat) / 255 ≤ val := by
    apply Nat.div_le_of_le_mul
    have : 255 - sat ≤ 255 := Nat.sub_le _ _
    calc val * (255 - sat) ≤ val * 255 := Nat.mul_le_mul_left _ this
      _ = 255 * val := Nat.mul_comm _ _
  have hc1 : (Int.tdiv ((val : ℤ) * (255 - (sat : ℤ))) 255) % 256 =
      ((val * (255 - sat) / 255 : ℕ) : ℤ) := by
    rw [hP, Int.tdiv_eq_ediv (by positivity) (by norm_num)]
    have e : ((val * (255 - sat) : ℕ) : ℤ) / 255 = ((val * (255 - sat) / 255 : ℕ) : ℤ) := by
      norm_cast
    rw [e]
    apply Int.emod_eq_of_lt (by positivity)
    have : ((val * (255 - sat) / 255 : ℕ) : ℤ) ≤ (val : ℤ) := by exact_mod_cast hdiv
    have : (val : ℤ) ≤ 255 := by exact_mod_cast hv
    omega
  have hvq : (0 : ℚ) ≤ (val : ℚ) := Nat.cast_nonneg _
  have hsq : (0 : ℚ) ≤ (sat : ℚ) := Nat.cast_nonneg _
  have hsq2 : (sat : ℚ) ≤ 255 := by exact_mod_cast hs2
  have hvq2 : (val : ℚ) ≤ 255 := by exact_mod_cast hv
  have hst0 : 0 ≤ (sat : ℚ) * t := mul_nonneg hsq ht0
  have hst1 : (sat : ℚ) * t ≤ (sat : ℚ) := by nlinarith
  have hlow : ((val * (255 - sat) / 255 : ℕ) : ℚ) ≤
      ((val : ℚ) * (255 - (sat : ℚ) * t)) / 255 := by
    have h1 : ((val * (255 - sat) / 255 : ℕ) : ℚ) ≤ ((val * (255 - sat) : ℕ) : ℚ) / 255 := by
      have := @Nat.cast_div_le ℚ _ (val * (255 - sat)) 255
      simpa using this
    have h2 : ((val * (255 - sat) : ℕ) : ℚ) = (val : ℚ) * (255 - (sat : ℚ)) := by
      push_cast [Nat.cast_sub hs2]; ring
    rw [h2] at h1
    refine le_trans h1 ?_
    apply div_le_div_of_nonneg_right _ (by norm_num)
    apply mul_le_mul_of_nonneg_left _ hvq
    linarith
  have hhigh : ((val : ℚ) * (255 - (sat : ℚ) * t)) / 255 ≤ (val : ℚ) := by
    rw [div_le_iff₀ (by norm_num)]
    nlinarith
  have hq0 : (0 : ℚ) ≤ ((val : ℚ) * (255 - (sat : ℚ) * t)) / 255 :=
    le_trans (Nat.cast_nonneg _) hlow
  obtain ⟨u1, _, _⟩ := toUChar_of_range _ hq0 (le_trans hhigh hvq2)
  rw [u1, toInt_of_nonneg _ hq0]
  refine ⟨hc1, by exact_mod_cast hdiv, ?_, ?_⟩
  · rw [Int.le_floor]
    exact_mod_cast hlow
  · have := Int.floor_le_floor hhigh
    rwa [Int.floor_natCast] at this

/-- For a hue below 360, `fr = hue/60 - (int)(hue/60)` lies in `[0, 1)`. -/
theorem HSV2RGB_fr_range (i_hue : ℕ) :
    0 ≤ (i_hue : ℚ) / 60.0 - (toInt ((i_hue : ℚ) / 60.0) : ℚ) ∧
    (i_hue : ℚ) / 60.0 - (toInt ((i_hue : ℚ) / 60.0) : ℚ) < 1 := by
  have h0 : (0 : ℚ) ≤ (i_hue : ℚ) / 60.0 := by positivity
  rw [toInt_of_nonneg _ h0, Int.self_sub_floor]
  exact ⟨Int.fract_nonneg _, Int.fract_lt_one _⟩

/-- C19: `HSV2RGB` preserves value.  For a hue in `0 .. 359`, `sat` in `1 .. 255` and
`val` in `0 .. 255`, the largest output channel is `val`, the smallest is
`c1 = floor (val*(255 - sat)/255)`, and every channel lies between them. -/
theorem HSV2RGB_value (color : COLOR) (i_hue sat val : ℕ) (hh : i_hue < 360)
    (hs1 : 1 ≤ sat) (hs2 : sat ≤ 255) (hv : val ≤ 255) :
    max (HSV2RGB color i_hue sat val).r
        (max (HSV2RGB color i_hue sat val).g (HSV2RGB color i_hue sat val).b) = (val : ℤ) ∧
    min (HSV2RGB color i_hue sat val).r
        (min (HSV2RGB color i_hue sat val).g (HSV2RGB color i_hue sat val).b) =
      ((val * (255 - sat) / 255 : ℕ) : ℤ) ∧
    (((val * (255 - sat) / 255 : ℕ) : ℤ) ≤ (HSV2RGB color i_hue sat val).r ∧
      (HSV2RGB color i_hue sat val).r ≤ (val : ℤ)) ∧
    (((val * (255 - sat) / 255 : ℕ) : ℤ) ≤ (HSV2RGB color i_hue sat val).g ∧
      (HSV2RGB color i_hue sat val).g ≤ (val : ℤ)) ∧
    (((val * (255 - sat) / 255 : ℕ) : ℤ) ≤ (HSV2RGB color i_hue sat val).b ∧
      (HSV2RGB color i_hue sat val).b ≤ (val : ℤ)) := by
  have hs0 : sat ≠ 0 := by omega
  obtain ⟨f0, f1⟩ := HSV2RGB_fr_range i_hue
  obtain ⟨i0, i5⟩ := HSV2RGB_sector_range i_hue hh
  obtain ⟨c1e, c1v, c2lo, c2hi⟩ := HSV2RGB_secondary sat val hs2 hv _ f0 f1.le
  have g0 : (0 : ℚ) ≤ 1.0 - ((i_hue : ℚ) / 60.0 - (toInt ((i_hue : ℚ) / 60.0) : ℚ)) := by
    norm_num; norm_num at f1; linarith
  have g1 : 1.0 - ((i_hue : ℚ) / 60.0 - (toInt ((i_hue : ℚ) / 60.0) : ℚ)) ≤ (1 : ℚ) := by
    norm_num; norm_num at f0; linarith
  obtain ⟨_, _, c3lo, c3hi⟩ := HSV2RGB_secondary sat val hs2 hv _ g0 g1
  have key : ∀ out : COLOR,
      (((val * (255 - sat) / 255 : ℕ) : ℤ) ≤ out.r ∧ out.r ≤ (val : ℤ)) →
      (((val * (255 - sat) / 255 : ℕ) : ℤ) ≤ out.g ∧ out.g ≤ (val : ℤ)) →
      (((val * (255 - sat) / 255 : ℕ) : ℤ) ≤ out.b ∧ out.b ≤ (val : ℤ)) →
      (out.r = (val : ℤ) ∨ out.g = (val : ℤ) ∨ out.b = (val : ℤ)) →
      (out.r = ((val * (255 - sat) / 255 : ℕ) : ℤ) ∨
        out.g = ((val * (255 - sat) / 255 : ℕ) : ℤ) ∨
        out.b = ((val * (255 - sat) / 255 : ℕ) : ℤ)) →
      max out.r (max out.g out.b) = (val : ℤ) ∧
      min out.r (min out.g out.b) = ((val * (255 - sat) / 255 : ℕ) : ℤ) ∧
      (((val * (255 - sat) / 255 : ℕ) : ℤ) ≤ out.r ∧ out.r ≤ (val : ℤ)) ∧
      (((val * (255 - sat) / 255 : ℕ) : ℤ) ≤ out.g ∧ out.g ≤ (val : ℤ)) ∧
      (((val * (255 - sat) / 255 : ℕ) : ℤ) ≤ out.b ∧ out.b ≤ (val : ℤ)) := by
    intro out hr hg hb hmax hmin
    obtain ⟨m1, m2⟩ := max_min_of_three out.r out.g out.b _ _ hr hg hb hmax hmin
    exact ⟨m1, m2, hr, hg, hb⟩
  have hval : ((val * (255 - sat) / 255 : ℕ) : ℤ) ≤ (val : ℤ) ∧ (val : ℤ) ≤ (val : ℤ) :=
    ⟨c1v, le_refl _⟩
  have hc1 : ((val * (255 - sat) / 255 : ℕ) : ℤ) ≤ ((val * (255 - sat) / 255 : ℕ) : ℤ) ∧
      ((val * (255 - sat) / 255 : ℕ) : ℤ) ≤ (val : ℤ) := ⟨le_refl _, c1v⟩
  apply key
  all_goals
    unfold HSV2RGB
    simp only [if_neg hs0, c1e]
    generalize toInt ((i_hue : ℚ) / 60.0) = ii at i0 i5 c2lo c2hi c3lo c3hi
    have hcases : ii = 0 ∨ ii = 1 ∨ ii = 2 ∨ ii = 3 ∨ ii = 4 ∨ ii = 5 := by omega
    rcases hcases with rfl | rfl | rfl | rfl | rfl | rfl <;>
      first
        | exact hval
        | exact hc1
        | exact ⟨c2lo, c2hi⟩
        | exact ⟨c3lo, c3hi⟩
        | exact Or.inl rfl
        | exact Or.inr (Or.inl rfl)
        | exact Or.inr (Or.inr rfl)

/-- C19 at hue 90, saturation 128, value 200, where the colour written is
`(149, 200, 99)`. -/
theorem HSV2RGB_value_witness :
    (90 < 360 ∧ 1 ≤ 128 ∧ 128 ≤ 255 ∧ 200 ≤ 255) ∧
    max (HSV2RGB ⟨0, 0, 0⟩ 90 128 200).r
        (max (HSV2RGB ⟨0, 0, 0⟩ 90 128 200).g (HSV2RGB ⟨0, 0, 0⟩ 90 128 200).b) =
      ((200 : ℕ) : ℤ) :=
  ⟨by decide, (HSV2RGB_value ⟨0, 0, 0⟩ 90 128 200 (by decide) (by decide) (by decide)
    (by decide)).1⟩

/-! ### Pass 1 of the renderer: the maximum magnitude -/

theorem max__left (a b : K) : a ≤ max_ a b := by
  unfold max_
  split_ifs with h
  · exact h.le
  · exact le_refl _

theorem max__right (a b : K) : b ≤ max_ a b := by
  unfold max_
  split_ifs with h
  · exact le_refl _
  · exact not_lt.mp h

theorem max__cases (a b : K) : max_ a b = a ∨ max_ a b = b := by
  unfold max_
  split_ifs
  · exact Or.inr rfl
  · exact Or.inl rfl

/-- A running maximum over a list dominates its start value and every element, and is
the start value or one of the elements. -/
theorem foldl_max_spec {α : Type} (g : α → K) (l : List α) :
    ∀ acc : K,
      acc ≤ l.foldl (fun m a => max_ m (g a)) acc ∧
      (∀ a ∈ l, g a ≤ l.foldl (fun m a => max_ m (g a)) acc) ∧
      (l.foldl (fun m a => max_ m (g a)) acc = acc ∨
        ∃ a ∈ l, l.foldl (fun m a => max_ m (g a)) acc = g a) := by
  induction l with
  | nil =>
    intro acc
    exact ⟨le_refl _, fun a ha => absurd ha (List.not_mem_nil a), Or.inl rfl⟩
  | cons b t ih =>
    intro acc
    obtain ⟨i1, i2, i3⟩ := ih (max_ acc (g b))
    simp only [List.foldl_cons]
    refine ⟨le_trans (max__left _ _) i1, ?_, ?_⟩
    · intro a ha
      rcases List.mem_cons.mp ha with rfl | hat
      · exact le_trans (max__right _ _) i1
      · exact i2 a hat
    · rcases i3 with h | ⟨a, hat, h⟩
      · rcases max__cases acc (g b) with h2 | h2
        · left; rw [h, h2]
        · right; exact ⟨b, List.mem_cons_self _ _, by rw [h, h2]⟩
      · right; exact ⟨a, List.mem_cons_of_mem _ hat, h⟩

/-- The nested running maximum of pass 1 over rows and columns. -/
theorem foldl_rows_spec (g : ℕ → ℕ → K) (cols rows : List ℕ) :
    ∀ acc : K,
      acc ≤ rows.foldl (fun (acc : K) (y : ℕ) =>
        cols.foldl (fun (acc : K) (x : ℕ) => max_ acc (g y x)) acc) acc ∧
      (∀ y ∈ rows, ∀ x ∈ cols, g y x ≤ rows.foldl (fun (acc : K) (y : ℕ) =>
        cols.foldl (fun (acc : K) (x : ℕ) => max_ acc (g y x)) acc) acc) ∧
      (rows.foldl (fun (acc : K) (y : ℕ) =>
          cols.foldl (fun (acc : K) (x : ℕ) => max_ acc (g y x)) acc) acc = acc ∨
        ∃ y ∈ rows, ∃ x ∈ cols, rows.foldl (fun (acc : K) (y : ℕ) =>
          cols.foldl (fun (acc : K) (x : ℕ) => max_ acc (g y x)) acc) acc = g y x) := by
  induction rows with
  | nil =>
    intro acc
    exact ⟨le_refl _, fun y hy => absurd hy (List.not_mem_nil y), Or.inl rfl⟩
  | cons r t ih =>
    intro acc
    obtain ⟨j1, j2, j3⟩ := foldl_max_spec (fun x : ℕ => g r x) cols acc
    obtain ⟨i1, i2, i3⟩ := ih (cols.foldl (fun (acc : K) (x : ℕ) => max_ acc (g r x)) acc)
    simp only [List.foldl_cons]
    refine ⟨le_trans j1 i1, ?_, ?_⟩
    · intro y hy x hx
      rcases List.mem_cons.mp hy with rfl | hyt
      · exact le_trans (j2 x hx) i1
      · exact i2 y hyt x hx
    · rcases i3 with h | ⟨y, hyt, x, hx, h⟩
      · rcases j3 with h2 | ⟨x, hx, h2⟩
        · left; rw [h, h2]
        · right; exact ⟨r, List.mem_cons_self _ _, x, hx, by rw [h, h2]⟩
      · right; exact ⟨y, List.mem_cons_of_mem _ hyt, x, hx, h⟩

/-- After pass 1, `max_abs` bounds the magnitude of every cell of the image and is the
magnitude of one of them. -/
theorem max_abs_of_spec (cabs : Cplx K → K) (counter : Grid K) (hcabs : ∀ z, 0 ≤ cabs z) :
    (∀ y x : ℕ, y < IMAGE_HEIGHT → x < IMAGE_WIDTH →
      cabs (counter (y : ℤ) (x : ℤ)) ≤ max_abs_of cabs counter) ∧
    (∃ y x : ℕ, y < IMAGE_HEIGHT ∧ x < IMAGE_WIDTH ∧
      max_abs_of cabs counter = cabs (counter (y : ℤ) (x : ℤ))) := by
  obtain ⟨_, i2, i3⟩ := foldl_rows_spec (fun (y x : ℕ) => cabs (counter (y : ℤ) (x : ℤ)))
    (List.range IMAGE_WIDTH) (List.range IMAGE_HEIGHT) (0.0 : K)
  have hb : ∀ y x : ℕ, y < IMAGE_HEIGHT → x < IMAGE_WIDTH →
      cabs (counter (y : ℤ) (x : ℤ)) ≤ max_abs_of cabs counter := by
    intro y x hy hx
    exact i2 y (List.mem_range.mpr hy) x (List.mem_range.mpr hx)
  refine ⟨hb, ?_⟩
  rcases i3 with h | ⟨y, hy, x, hx, h⟩
  · have hH : 0 < IMAGE_HEIGHT := by simp [IMAGE_HEIGHT, SCALE]
    have hW : 0 < IMAGE_WIDTH := by simp [IMAGE_WIDTH, SCALE]
    have e : (0.0 : K) = 0 := by norm_num
    have hm : max_abs_of cabs counter = 0 := by
      unfold max_abs_of; rw [h, e]
    refine ⟨0, 0, hH, hW, ?_⟩
    have := hb 0 0 hH hW
    rw [hm] at this ⊢
    exact le_antisymm (hcabs _) this
  · exact ⟨y, x, List.mem_range.mp hy, List.mem_range.mp hx, h⟩

/-- The shaping function is `cbrt (1 - (x - 1)²)`. -/
theorem scale_function_eq (cbrt : K → K) (x : K) :
    scale_function cbrt x = cbrt (1 - (x - 1) ^ 2) := by
  unfold scale_function sqr
  have e : (1.0 : K) = 1 := by norm_num
  rw [e, pow_two]

/-- On `[0, 1]` the argument `1 - (x - 1)²` of the cube root lies in `[0, 1]` and is
non-decreasing. -/
theorem shape_arg_bounds (a b : K) (ha : 0 ≤ a) (hab : a ≤ b) (hb : b ≤ 1) :
    0 ≤ 1 - (a - 1) ^ 2 ∧ 1 - (a - 1) ^ 2 ≤ 1 - (b - 1) ^ 2 ∧ 1 - (b - 1) ^ 2 ≤ 1 := by
  refine ⟨?_, ?_, ?_⟩ <;> nlinarith [sq_nonneg (b - 1), sq_nonneg (a - 1)]

/-- The real cube root is non-decreasing and fixes 0 and 1. -/
theorem real_cbrt_contract :
    (∀ a b : ℝ, a ≤ b →
      (fun x : ℝ => if 0 ≤ x then x ^ ((1 : ℝ) / 3) else -((-x) ^ ((1 : ℝ) / 3))) a ≤
      (fun x : ℝ => if 0 ≤ x then x ^ ((1 : ℝ) / 3) else -((-x) ^ ((1 : ℝ) / 3))) b) ∧
    (fun x : ℝ => if 0 ≤ x then x ^ ((1 : ℝ) / 3) else -((-x) ^ ((1 : ℝ) / 3))) 0 = 0 ∧
    (fun x : ℝ => if 0 ≤ x then x ^ ((1 : ℝ) / 3) else -((-x) ^ ((1 : ℝ) / 3))) 1 = 1 := by
  refine ⟨?_, ?_, ?_⟩
  · intro a b hab
    simp only
    by_cases ha : 0 ≤ a
    · have hb : 0 ≤ b := le_trans ha hab
      rw [if_pos ha, if_pos hb]
      exact Real.rpow_le_rpow ha hab (by norm_num)
    · rw [if_neg ha]
      have ha2 : 0 ≤ -a := by linarith
      by_cases hb : 0 ≤ b
      · rw [if_pos hb]
        have p1 : 0 ≤ (-a) ^ ((1 : ℝ) / 3) := Real.rpow_nonneg ha2 _
        have p2 : 0 ≤ b ^ ((1 : ℝ) / 3) := Real.rpow_nonneg hb _
        linarith
      · rw [if_neg hb]
        have hb2 : 0 ≤ -b := by linarith
        have := Real.rpow_le_rpow hb2 (by linarith : -b ≤ -a)
          (by norm_num : (0 : ℝ) ≤ (1 : ℝ) / 3)
        linarith
  · simp only [le_refl, if_true]
    exact Real.zero_rpow (by norm_num)
  · simp only [zero_le_one, if_true]
    exact Real.one_rpow _

/-- C14: after pass 1, `max_abs` bounds the magnitude of every cell of the image and is
attained by one of them (so it is 0 exactly for a grid of magnitude-zero cells); hence
when `max_abs > 0`, for every cell the ratio `|cell| / max_abs` lies in `[0, 1]`, the
lightness `scale_function(ratio) = cbrt (1 - (ratio - 1)²)` lies in `[0, 1]`, and it is
non-decreasing in `|cell|`.  `cabs` is any non-negative modulus and `cbrt` any
non-decreasing function with `cbrt 0 = 0` and `cbrt 1 = 1`. -/
theorem max_abs_lightness (cabs : Cplx K → K) (cbrt : K → K) (counter : Grid K)
    (hcabs : ∀ z, 0 ≤ cabs z) (hmono : ∀ a b : K, a ≤ b → cbrt a ≤ cbrt b)
    (h0 : cbrt 0 = 0) (h1 : cbrt 1 = 1) :
    (∀ y x : ℕ, y < IMAGE_HEIGHT → x < IMAGE_WIDTH →
      cabs (counter (y : ℤ) (x : ℤ)) ≤ max_abs_of cabs counter) ∧
    (∃ y x : ℕ, y < IMAGE_HEIGHT ∧ x < IMAGE_WIDTH ∧
      max_abs_of cabs counter = cabs (counter (y : ℤ) (x : ℤ))) ∧
    (0 < max_abs_of cabs counter →
      ∀ y x : ℕ, y < IMAGE_HEIGHT → x < IMAGE_WIDTH →
        0 ≤ cabs (counter (y : ℤ) (x : ℤ)) / max_abs_of cabs counter ∧
        cabs (counter (y : ℤ) (x : ℤ)) / max_abs_of cabs counter ≤ 1 ∧
        render_lightness cabs cbrt (max_abs_of cabs counter) (counter (y : ℤ) (x : ℤ)) =
          some (cbrt (1 - (cabs (counter (y : ℤ) (x : ℤ)) / max_abs_of cabs counter - 1) ^ 2)) ∧
        0 ≤ cbrt (1 - (cabs (counter (y : ℤ) (x : ℤ)) / max_abs_of cabs counter - 1) ^ 2) ∧
        cbrt (1 - (cabs (counter (y : ℤ) (x : ℤ)) / max_abs_of cabs counter - 1) ^ 2) ≤ 1) ∧
    (0 < max_abs_of cabs counter →
      ∀ y1 x1 y2 x2 : ℕ, y1 < IMAGE_HEIGHT → x1 < IMAGE_WIDTH → y2 < IMAGE_HEIGHT →
        x2 < IMAGE_WIDTH →
        cabs (counter (y1 : ℤ) (x1 : ℤ)) ≤ cabs (counter (y2 : ℤ) (x2 : ℤ)) →
        scale_function cbrt (cabs (counter (y1 : ℤ) (x1 : ℤ)) / max_abs_of cabs counter) ≤
          scale_function cbrt (cabs (counter (y2 : ℤ) (x2 : ℤ)) / max_abs_of cabs counter)) := by
  obtain ⟨hb, hatt⟩ := max_abs_of_spec cabs counter hcabs
  have ratio : 0 < max_abs_of cabs counter → ∀ y x : ℕ, y < IMAGE_HEIGHT → x < IMAGE_WIDTH →
      0 ≤ cabs (counter (y : ℤ) (x : ℤ)) / max_abs_of cabs counter ∧
      cabs (counter (y : ℤ) (x : ℤ)) / max_abs_of cabs counter ≤ 1 := by
    intro hpos y x hy hx
    exact ⟨div_nonneg (hcabs _) hpos.le, (div_le_one hpos).mpr (hb y x hy hx)⟩
  refine ⟨hb, hatt, ?_, ?_⟩
  · intro hpos y x hy hx
    obtain ⟨r0, r1⟩ := ratio hpos y x hy hx
    obtain ⟨a0, _, a1⟩ := shape_arg_bounds _ _ r0 (le_refl _) r1
    refine ⟨r0, r1, ?_, ?_, ?_⟩
    · rw [render_lightness_of_ne cabs cbrt _ _ hpos.ne.symm, scale_function_eq]
    · have := hmono _ _ a0
      rwa [h0] at this
    · have := hmono _ _ a1
      rwa [h1] at this
  · intro hpos y1 x1 y2 x2 hy1 hx1 hy2 hx2 hle
    obtain ⟨r0, _⟩ := ratio hpos y1 x1 hy1 hx1
    obtain ⟨_, r1⟩ := ratio hpos y2 x2 hy2 hx2
    have hdiv : cabs (counter (y1 : ℤ) (x1 : ℤ)) / max_abs_of cabs counter ≤
        cabs (counter (y2 : ℤ) (x2 : ℤ)) / max_abs_of cabs counter :=
      div_le_div_of_nonneg_right hle hpos.le
    rw [scale_function_eq, scale_function_eq]
    exact hmono _ _ (shape_arg_bounds _ _ r0 hdiv r1).2.1

/-- C14 over the reals, with the real modulus and cube root, on the grid whose cells
are all `3 + 4i`. -/
theorem max_abs_lightness_witness :
    (∀ z : Cplx ℝ, 0 ≤ (fun z : Cplx ℝ => Real.sqrt (z.re * z.re + z.im * z.im)) z) ∧
    (∃ y x : ℕ, y < IMAGE_HEIGHT ∧ x < IMAGE_WIDTH ∧
      max_abs_of (fun z : Cplx ℝ => Real.sqrt (z.re * z.re + z.im * z.im))
          (fun _ _ => (⟨3, 4⟩ : Cplx ℝ)) =
        (fun z : Cplx ℝ => Real.sqrt (z.re * z.re + z.im * z.im))
          ((fun _ _ => (⟨3, 4⟩ : Cplx ℝ)) (y : ℤ) (x : ℤ))) :=
  ⟨fun _ => Real.sqrt_nonneg _,
    (max_abs_lightness (fun z : Cplx ℝ => Real.sqrt (z.re * z.re + z.im * z.im))
      (fun x : ℝ => if 0 ≤ x then x ^ ((1 : ℝ) / 3) else -((-x) ^ ((1 : ℝ) / 3)))
      (fun _ _ => (⟨3, 4⟩ : Cplx ℝ)) (fun _ => Real.sqrt_nonneg _)
      real_cbrt_contract.1 real_cbrt_contract.2.1 real_cbrt_contract.2.2).2.1⟩

/-! ### Black and white pixels -/

/-- Lightness 0 gives the colour `(0, 0, 0)` for every hue and saturation. -/
theorem HSL2RGB_black (h sl : K) : HSL2RGB h sl 0 = ⟨0, 0, 0⟩ := by
  have hv : hsl_v sl (0 : K) = 0 := by
    unfold hsl_v
    rw [if_pos (by norm_num)]
    ring
  have hch : HSL2RGB_channels h sl 0 = (0, 0, 0) := by
    unfold HSL2RGB_channels
    simp only [hv, gt_iff_lt, lt_irrefl, if_false]
  have hz : toUChar ((0 : K) * 255.0) = 0 := by
    have : (0 : K) * 255.0 = ((0 : ℕ) : K) := by norm_num
    unfold toUChar
    rw [this, toInt_natCast]; rfl
  unfold HSL2RGB
  rw [hch]
  simp only [hz]

/-- Lightness 1 gives the colour `(255, 255, 255)` for every hue and saturation. -/
theorem HSL2RGB_white (h sl : K) : HSL2RGB h sl 1 = ⟨255, 255, 255⟩ := by
  have hv : hsl_v sl (1 : K) = 1 := by
    unfold hsl_v
    rw [if_neg (by norm_num)]
    ring
  have tv : (HSL2RGB_locals h sl 1).v = 1 := hv
  have tm : (HSL2RGB_locals h sl 1).m = 1 := by
    show (1 : K) + 1 - hsl_v sl 1 = 1
    rw [hv]; ring
  have tvsf : (HSL2RGB_locals h sl 1).vsf = 0 := by
    show hsl_v sl 1 * ((hsl_v sl 1 - ((1 : K) + 1 - hsl_v sl 1)) / hsl_v sl 1) *
      (HSL2RGB_locals h sl 1).fract = 0
    rw [hv]
    have : (1 : K) - (1 + 1 - 1) = 0 := by ring
    rw [this, zero_div, mul_zero, zero_mul]
  have t1 : (HSL2RGB_locals h sl 1).mid1 = 1 := by
    show (HSL2RGB_locals h sl 1).m + (HSL2RGB_locals h sl 1).vsf = 1
    rw [tm, tvsf, add_zero]
  have t2 : (HSL2RGB_locals h sl 1).mid2 = 1 := by
    show (HSL2RGB_locals h sl 1).v - (HSL2RGB_locals h sl 1).vsf = 1
    rw [tv, tvsf, sub_zero]
  have hch : HSL2RGB_channels h sl 1 = (1, 1, 1) := by
    unfold HSL2RGB_channels
    simp only [hv, gt_iff_lt, zero_lt_one, if_true]
    split <;> simp only [tv, tm, t1, t2]
  have hw : toUChar ((1 : K) * 255.0) = 255 := by
    have : (1 : K) * 255.0 = ((255 : ℕ) : K) := by norm_num
    unfold toUChar
    rw [this, toInt_natCast]; rfl
  unfold HSL2RGB
  rw [hch]
  simp only [hw]

/-- C17: whenever `max_abs > 0`, a cell whose accumulated value is exactly zero is
painted black `(0, 0, 0)` and a cell whose magnitude equals `max_abs` is painted white
`(255, 255, 255)`, whatever the phase `carg` of the cell.  `cabs` is any modulus with
`cabs 0 = 0`, `cbrt` any function with `cbrt 0 = 0` and `cbrt 1 = 1`. -/
theorem render_black_white (cabs carg : Cplx K → K) (cbrt : K → K) (pi : K)
    (counter : Grid K) (y x : ℤ) (hc0 : cabs 0 = 0) (h0 : cbrt 0 = 0) (h1 : cbrt 1 = 1)
    (hpos : 0 < max_abs_of cabs counter) :
    (counter y x = 0 →
      render_nebulabrot cabs carg cbrt pi counter y x = some ⟨0, 0, 0⟩) ∧
    (cabs (counter y x) = max_abs_of cabs counter →
      render_nebulabrot cabs carg cbrt pi counter y x = some ⟨255, 255, 255⟩) := by
  constructor
  · intro hz
    have hl : render_lightness cabs cbrt (max_abs_of cabs counter) (counter y x) = some 0 := by
      rw [render_lightness_of_ne cabs cbrt _ _ hpos.ne.symm, hz, hc0, zero_div,
        scale_function_eq]
      have : (1 : K) - (0 - 1) ^ 2 = 0 := by ring
      rw [this, h0]
    unfold render_nebulabrot
    simp only [hl, HSL2RGB_black]
  · intro hm
    have hl : render_lightness cabs cbrt (max_abs_of cabs counter) (counter y x) = some 1 := by
      rw [render_lightness_of_ne cabs cbrt _ _ hpos.ne.symm, hm, div_self hpos.ne.symm,
        scale_function_eq]
      have : (1 : K) - (1 - 1) ^ 2 = 1 := by ring
      rw [this, h1]
    unfold render_nebulabrot
    simp only [hl, HSL2RGB_white]

/-- C17 over the reals, with the real modulus, argument and cube root, on the grid
whose cells are all `3 + 4i` (so `max_abs = 5`): every pixel is white. -/
theorem render_black_white_witness :
    0 < max_abs_of (fun z : Cplx ℝ => Real.sqrt (z.re * z.re + z.im * z.im))
      (fun _ _ => (⟨3, 4⟩ : Cplx ℝ)) ∧
    render_nebulabrot (fun z : Cplx ℝ => Real.sqrt (z.re * z.re + z.im * z.im))
      (fun z : Cplx ℝ => Complex.arg ⟨z.re, z.im⟩)
      (fun x : ℝ => if 0 ≤ x then x ^ ((1 : ℝ) / 3) else -((-x) ^ ((1 : ℝ) / 3)))
      Real.pi (fun _ _ => (⟨3, 4⟩ : Cplx ℝ)) 0 0 = some ⟨255, 255, 255⟩ := by
  have hc0 : (fun z : Cplx ℝ => Real.sqrt (z.re * z.re + z.im * z.im)) 0 = 0 := by
    show Real.sqrt ((0 : ℝ) * 0 + 0 * 0) = 0
    simp
  obtain ⟨hb, y, x, _, _, hatt⟩ := max_abs_of_spec
    (fun z : Cplx ℝ => Real.sqrt (z.re * z.re + z.im * z.im))
    (fun _ _ => (⟨3, 4⟩ : Cplx ℝ)) (fun _ => Real.sqrt_nonneg _)
  have h5 : Real.sqrt ((3 : ℝ) * 3 + 4 * 4) = 5 := by
    have : (3 : ℝ) * 3 + 4 * 4 = 5 ^ 2 := by norm_num
    rw [this, Real.sqrt_sq (by norm_num)]
  have hM : max_abs_of (fun z : Cplx ℝ => Real.sqrt (z.re * z.re + z.im * z.im))
      (fun _ _ => (⟨3, 4⟩ : Cplx ℝ)) = 5 := by
    rw [hatt]; exact h5
  have hpos : 0 < max_abs_of (fun z : Cplx ℝ => Real.sqrt (z.re * z.re + z.im * z.im))
      (fun _ _ => (⟨3, 4⟩ : Cplx ℝ)) := by
    rw [hM]; norm_num
  refine ⟨hpos, ?_⟩
  exact (render_black_white (fun z : Cplx ℝ => Real.sqrt (z.re * z.re + z.im * z.im))
    (fun z : Cplx ℝ => Complex.arg ⟨z.re, z.im⟩)
    (fun x : ℝ => if 0 ≤ x then x ^ ((1 : ℝ) / 3) else -((-x) ^ ((1 : ℝ) / 3)))
    Real.pi (fun _ _ => (⟨3, 4⟩ : Cplx ℝ)) 0 0 hc0 real_cbrt_contract.2.1
    real_cbrt_contract.2.2 hpos).2 (by rw [hM]; exact h5)

/-! ### The image lies inside the bailout radius -/

/-- A `double` whose conversion to `int` is non-negative is greater than -1. -/
theorem lt_of_toInt_nonneg (d : K) (h : 0 ≤ toInt d) : -1 < d := by
  unfold toInt at h
  split_ifs at h with hd
  · linarith
  · have : (-1 : ℤ) < ⌈d⌉ := by omega
    have := Int.lt_ceil.mp this
    simpa using this

/-- A `double` whose conversion to `int` is below a positive bound is below it. -/
theorem lt_of_toInt_lt (d : K) (n : ℤ) (hn : 0 < n) (h : toInt d < n) : d < (n : K) := by
  unfold toInt at h
  split_ifs at h with hd
  · exact Int.floor_lt.mp h
  · have : (0 : K) < (n : K) := by exact_mod_cast hn
    linarith [not_le.mp hd]

/-- A point whose pixel is inside the image has coordinates in
`(-2.51, 1.5) × (-1.13, 1.13)`. -/
theorem in_image_box (x y : K) (h : out_of_image (pixel_ix x) (pixel_iy y) = false) :
    -(251 / 100) < x ∧ x < 3 / 2 ∧ -(113 / 100) < y ∧ y < 113 / 100 := by
  unfold out_of_image at h
  simp only [decide_eq_false_iff_not, not_or, not_lt, ge_iff_le, not_le] at h
  obtain ⟨hx0, hx1, hy0, hy1⟩ := h
  have ax := lt_of_toInt_nonneg _ hx0
  have bx := lt_of_toInt_lt _ _ (by simp [IMAGE_WIDTH, SCALE]) hx1
  have ay := lt_of_toInt_nonneg _ hy0
  have bw := lt_of_toInt_lt _ _ (by simp [IMAGE_HEIGHT, SCALE]) hy1
  have ex : (x - START_X) * (IMAGE_WIDTH : K) / VIEW_WIDTH = (x + 5 / 2) * 683 := by
    norm_num [START_X, VIEW_CENTER_X, VIEW_WIDTH, IMAGE_WIDTH, SCALE]
    ring
  have ey : (y - START_Y) * (IMAGE_HEIGHT : K) / VIEW_HEIGHT = y * 683 + 768 := by
    norm_num [START_Y, VIEW_CENTER_Y, VIEW_HEIGHT, VIEW_WIDTH, IMAGE_WIDTH, IMAGE_HEIGHT,
      SCALE]
    ring
  rw [ex] at ax bx
  rw [ey] at ay bw
  have cw : ((IMAGE_WIDTH : ℤ) : K) = 2732 := by norm_num [IMAGE_WIDTH, SCALE]
  have ch : ((IMAGE_HEIGHT : ℤ) : K) = 1536 := by norm_num [IMAGE_HEIGHT, SCALE]
  rw [cw] at bx
  rw [ch] at bw
  refine ⟨?_, ?_, ?_, ?_⟩ <;> linarith

/-- A point of the box `(-2.51, 1.5) × (-1.13, 1.13)` lies strictly inside the bailout
radius. -/
theorem box_inside_bailout (z : Cplx K)
    (h : -(251 / 100) < z.re ∧ z.re < 3 / 2 ∧ -(113 / 100) < z.im ∧ z.im < 113 / 100) :
    z.re * z.re + z.im * z.im < BAILOUT * BAILOUT ∧ cabs_gt z BAILOUT = false := by
  obtain ⟨h1, h2, h3, h4⟩ := h
  have e : (BAILOUT : K) = 3 := by norm_num [BAILOUT]
  have hn : z.re * z.re + z.im * z.im < 9 := by
    nlinarith [mul_pos (sub_pos.mpr h1) (by linarith : (0 : K) < 251 / 100 - z.re),
      mul_pos (sub_pos.mpr h3) (sub_pos.mpr h4)]
  refine ⟨by rw [e]; linarith, ?_⟩
  unfold cabs_gt
  rw [e]
  simp only [decide_eq_false_iff_not, not_or, not_lt]
  exact ⟨by norm_num, by linarith⟩

/-- Every sampled seed lies in the box `[-2.5, 1.5) × [-1.125, 1.125]`. -/
theorem samples_box (p : K × K) (hp : p ∈ (samples : List (K × K))) :
    -(251 / 100) < p.1 ∧ p.1 < 3 / 2 ∧ -(113 / 100) < p.2 ∧ p.2 < 113 / 100 := by
  unfold samples at hp
  simp only [List.mem_flatMap, List.mem_map, List.mem_range] at hp
  obtain ⟨i, hi, j, hj, rfl⟩ := hp
  have hjK : (j : K) < 10928 := by
    have : j < 10928 := by simpa [IMAGE_WIDTH, SCALE, PRECISION] using hj
    exact_mod_cast this
  have hiK : (i : K) ≤ 6144 := by
    have : i < 6145 := by simpa [IMAGE_HEIGHT, SCALE, PRECISION] using hi
    have : i ≤ 6144 := by omega
    exact_mod_cast this
  have hj0 : (0 : K) ≤ (j : K) := Nat.cast_nonneg _
  have hi0 : (0 : K) ≤ (i : K) := Nat.cast_nonneg _
  have sx : (STEP_X : K) = 1 / 2732 := by
    norm_num [STEP_X, VIEW_WIDTH, IMAGE_WIDTH, SCALE, PRECISION]
  have sy : (STEP_Y : K) = 1 / 2732 := by
    rw [STEP_Y_eq_STEP_X]; exact sx
  have e1 : (START_X : K) = -(5 / 2) := by norm_num [START_X, VIEW_CENTER_X, VIEW_WIDTH]
  have e2 : (START_Y : K) = -(768 / 683) := by
    norm_num [START_Y, VIEW_CENTER_Y, VIEW_HEIGHT, VIEW_WIDTH, IMAGE_WIDTH, IMAGE_HEIGHT,
      SCALE]
  simp only [sx, sy, e1, e2]
  refine ⟨?_, ?_, ?_, ?_⟩ <;> linarith

/-- With the bailout test put back, the loop does the same as without it, as long as
the point it starts from is within the bailout radius: every later point it tests has
just been found inside the image. -/
theorem process_loop_bailout_eq (c : Cplx K) (n : ℕ) :
    ∀ (z : Cplx K) (G : Grid K), cabs_gt z BAILOUT = false →
      process_loop_bailout c n z G = process_loop c n z G := by
  induction n with
  | zero => intro z G _; rfl
  | succ n ih =>
    intro z G hz
    simp only [process_loop_bailout, process_loop, hz, Bool.false_eq_true, if_false]
    by_cases ho : out_of_image (pixel_ix (z * z + c).re) (pixel_iy (z * z + c).im) = true
    · simp only [ho, if_true]
    · have ho2 : out_of_image (pixel_ix (z * z + c).re) (pixel_iy (z * z + c).im) = false := by
        simpa using ho
      simp only [ho2, Bool.false_eq_true, if_false]
      exact ih _ _ (box_inside_bailout _ (in_image_box _ _ ho2)).2

/-- C16: with the program's viewport and `BAILOUT = 3`, every point whose pixel index
is inside the image has `|z| < BAILOUT`; so every sampled seed and every deposited
orbit point lies strictly inside the bailout radius, and `process_point` with the
commented-out bailout test put back leaves the same grid for every sampled seed. -/
theorem image_inside_bailout (G : Grid K) :
    (∀ z : Cplx K, out_of_image (pixel_ix z.re) (pixel_iy z.im) = false →
      z.re * z.re + z.im * z.im < BAILOUT * BAILOUT ∧ cabs_gt z BAILOUT = false) ∧
    (∀ p : K × K, p ∈ (samples : List (K × K)) →
      p.1 * p.1 + p.2 * p.2 < BAILOUT * BAILOUT) ∧
    (∀ (c : Cplx K) (J k : ℕ), IsFirstOut c J → 1 ≤ k → k < J →
      (orbit c k).re * (orbit c k).re + (orbit c k).im * (orbit c k).im <
        BAILOUT * BAILOUT) ∧
    (∀ p : K × K, p ∈ (samples : List (K × K)) →
      process_point_bailout G p.1 p.2 = process_point G p.1 p.2) := by
  have part1 : ∀ z : Cplx K, out_of_image (pixel_ix z.re) (pixel_iy z.im) = false →
      z.re * z.re + z.im * z.im < BAILOUT * BAILOUT ∧ cabs_gt z BAILOUT = false :=
    fun z hz => box_inside_bailout z (in_image_box _ _ hz)
  refine ⟨part1, ?_, ?_, ?_⟩
  · intro p hp
    exact (box_inside_bailout ⟨p.1, p.2⟩ (samples_box p hp)).1
  · intro c J k hJ hk1 hkJ
    exact (part1 _ (hJ.2.2.1 k hk1 hkJ)).1
  · intro p hp
    unfold process_point_bailout process_point
    simp only
    rw [process_loop_bailout_eq _ _ _ _
      (box_inside_bailout ⟨p.1, p.2⟩ (samples_box p hp)).2]

/-! ### The shortcuts and the loop -/

theorem in_set_loop_only_def (c : Cplx K) :
    in_set_loop_only c = in_set_loop c MAX_ITERATIONS c := by
  unfold in_set_loop_only
  exact Eq.refl _

/-- The loop alone returns 1 exactly when no `z_k` with `k < MAX_ITERATIONS` exceeds the
bailout radius. -/
theorem in_set_loop_only_eq_one (c : Cplx K) :
    in_set_loop_only c = 1 ↔
      ∀ k, k < MAX_ITERATIONS → cabs_gt (orbit c k) BAILOUT = false := by
  have hl := (in_set_loop_spec c MAX_ITERATIONS 0).2
  simp only [Nat.zero_le, true_and, Nat.zero_add] at hl
  have h0 : orbit c 0 = c := Eq.refl _
  rw [h0] at hl
  rw [in_set_loop_only_def]
  refine Iff.trans hl ?_
  constructor
  · intro h k hk
    cases hb : cabs_gt (orbit c k) BAILOUT
    · exact Eq.refl _
    · exact absurd ⟨k, hk, hb⟩ h
  · rintro h ⟨k, hk, hb⟩
    rw [h k hk] at hb
    exact Bool.noConfusion hb

/-- `in_set` agrees with the loop alone at `c` exactly when `c` fails both shortcut
tests or none of `z_0 .. z_{MAX_ITERATIONS-1}` exceeds the bailout radius. -/
theorem in_set_eq_loop_only_iff (c : Cplx K) :
    in_set c = in_set_loop_only c ↔
      ((in_cardioid c.re c.im || in_bulb c.re c.im) = true →
        ∀ k, k < MAX_ITERATIONS → cabs_gt (orbit c k) BAILOUT = false) := by
  by_cases hs : (in_cardioid c.re c.im || in_bulb c.re c.im) = true
  · have h1 : in_set c = 1 := by
      unfold in_set
      simp only [hs, if_true]
    rw [h1]
    constructor
    · intro h _
      exact (in_set_loop_only_eq_one c).mp h.symm
    · intro h
      exact ((in_set_loop_only_eq_one c).mpr (h hs)).symm
  · have h1 : in_set c = in_set_loop_only c := by
      rw [in_set_loop_only_def]
      unfold in_set
      simp only [hs, Bool.false_eq_true, if_false]
    exact ⟨fun _ h => absurd h hs, fun _ => h1⟩

end Proofs

end Nebulabrot
